import Mathlib

/-!
# OpenWire relay — shallow embedding and verification

This file embeds the OpenWire relay server (the WebSocket rendezvous /
message-routing layer) in Lean 4 and proves properties of the embedded
code.  Two implementations of the relay exist in the repository:

* `openwire-relay/server.js` — the long-lived single-process Node relay;
* `openwire-relay/src/index.js` — the Cloudflare Durable Object relay
  (`RelayRoom`).

Both keep the same shared state: a `peers` map from live connection to
`{peer_id, nick, rooms : Set}` and a `rooms` map from room id to
`{name, members : Set<peer_id>}`.  We embed the shared state as
association lists (preserving JavaScript `Map` / `Set` insertion-order
semantics), and each message handler as a pure step function
`State → State × outbound events`.  The small behavioural differences
between the two deployments (nick truncation and suffixing, welcome
payload, default names, error text, the `error` listener) are captured
by a `Shape` record so that both step functions are instances of one
parametrised router.

Connections are modelled by natural numbers; identifier generation
(`crypto.randomUUID()`) is modelled by threading the generated string
into each step as an explicit input.  Transport writes are modelled as
the emitted `(connection, event)` pairs; the JavaScript `try/catch` /
`readyState` guards around `ws.send` only make delivery best-effort and
do not affect relay state.
-/

namespace OpenWire

/-! ## Generic association-list and set helpers

JavaScript `Map` iterates entries in insertion order; `Map.set` on an
existing key updates the value in place (keeping the key's position),
on a fresh key it appends.  `Set.add` appends if absent, `Set.delete`
removes.  The helpers below implement exactly these semantics on
lists. -/

/-- Lookup in an association list (JavaScript `Map.get`). -/
def alookup {κ α : Type} [DecidableEq κ] (k : κ) : List (κ × α) → Option α
  | [] => none
  | (k', v) :: t => if k' = k then some v else alookup k t

/-- Update/insert in an association list (JavaScript `Map.set`): replaces
the first entry with the given key in place, or appends a new entry. -/
def aset {κ α : Type} [DecidableEq κ] (k : κ) (v : α) : List (κ × α) → List (κ × α)
  | [] => [(k, v)]
  | (k', v') :: t => if k' = k then (k, v) :: t else (k', v') :: aset k v t

/-- Delete from an association list (JavaScript `Map.delete`). -/
def adel {κ α : Type} [DecidableEq κ] (k : κ) (l : List (κ × α)) : List (κ × α) :=
  l.filter (fun p => p.1 ≠ k)

/-- JavaScript `Set.add`: append if not already present. -/
def insSet {α : Type} [DecidableEq α] (x : α) (l : List α) : List α :=
  if x ∈ l then l else l ++ [x]

/-- JavaScript `Set.delete`: remove all occurrences. -/
def delSet {α : Type} [DecidableEq α] (x : α) (l : List α) : List α :=
  l.filter (fun y => y ≠ x)

@[simp] theorem alookup_nil {κ α : Type} [DecidableEq κ] (k : κ) :
    alookup k ([] : List (κ × α)) = none := rfl

@[simp] theorem alookup_cons {κ α : Type} [DecidableEq κ] (k k' : κ) (v : α) (t : List (κ × α)) :
    alookup k ((k', v) :: t) = if k' = k then some v else alookup k t := rfl

@[simp] theorem alookup_aset_self {κ α : Type} [DecidableEq κ] (k : κ) (v : α)
    (l : List (κ × α)) : alookup k (aset k v l) = some v := by
  induction l with
  | nil => simp [aset, alookup]
  | cons p t ih =>
    obtain ⟨k', v'⟩ := p
    by_cases h : k' = k <;> simp [aset, alookup, h, ih]

theorem alookup_aset_ne {κ α : Type} [DecidableEq κ] {k k' : κ} (h : k' ≠ k) (v : α)
    (l : List (κ × α)) : alookup k' (aset k v l) = alookup k' l := by
  induction l with
  | nil => simp [aset, alookup, Ne.symm h]
  | cons p t ih =>
    obtain ⟨k₀, v₀⟩ := p
    by_cases h₀ : k₀ = k
    · subst h₀
      simp [aset, alookup, Ne.symm h]
    · simp only [aset, if_neg h₀, alookup_cons]
      by_cases h₁ : k₀ = k' <;> simp [h₁, ih]

theorem alookup_mem {κ α : Type} [DecidableEq κ] {k : κ} {v : α} {l : List (κ × α)}
    (h : alookup k l = some v) : (k, v) ∈ l := by
  induction l with
  | nil => simp [alookup] at h
  | cons p t ih =>
    obtain ⟨k', v'⟩ := p
    by_cases hk : k' = k
    · subst hk
      simp [alookup] at h
      simp [h]
    · simp [alookup, hk] at h
      exact List.mem_cons_of_mem _ (ih h)

/-- Keys of `aset k v l`: unchanged if `k` is already a key, else `k` appended. -/
theorem map_fst_aset {κ α : Type} [DecidableEq κ] (k : κ) (v : α) (l : List (κ × α)) :
    (aset k v l).map Prod.fst =
      if k ∈ l.map Prod.fst then l.map Prod.fst else l.map Prod.fst ++ [k] := by
  induction l with
  | nil => simp [aset]
  | cons p t ih =>
    obtain ⟨k', v'⟩ := p
    by_cases h : k' = k
    · subst h
      simp [aset]
    · have hne : ¬k = k' := fun hh => h hh.symm
      simp only [aset, if_neg h, List.map_cons, ih, List.mem_cons, hne, false_or]
      by_cases hm : k ∈ t.map Prod.fst
      · simp [hm]
      · simp [hm]

theorem aset_keys_nodup {κ α : Type} [DecidableEq κ] {k : κ} {v : α} {l : List (κ × α)}
    (h : (l.map Prod.fst).Nodup) : ((aset k v l).map Prod.fst).Nodup := by
  rw [map_fst_aset]
  by_cases hm : k ∈ l.map Prod.fst
  · simpa [hm] using h
  · rw [if_neg hm]
    refine List.Nodup.append h (List.nodup_singleton k) ?_
    intro a ha hb
    rw [List.mem_singleton] at hb
    exact hm (hb ▸ ha)

/-- Membership in `aset k v l` when keys are nodup: the new entry, or an old
entry with a different key. -/
theorem mem_aset {κ α : Type} [DecidableEq κ] {k : κ} {v : α} {l : List (κ × α)}
    (hnd : (l.map Prod.fst).Nodup) {p : κ × α} :
    p ∈ aset k v l ↔ p = (k, v) ∨ (p ∈ l ∧ p.1 ≠ k) := by
  induction l with
  | nil => simp [aset]
  | cons q t ih =>
    obtain ⟨k', v'⟩ := q
    simp only [List.map_cons, List.nodup_cons] at hnd
    by_cases h : k' = k
    · subst h
      have ha : aset k' v ((k', v') :: t) = (k', v) :: t := by simp [aset]
      rw [ha]
      simp only [List.mem_cons]
      constructor
      · rintro (rfl | hp)
        · exact Or.inl rfl
        · exact Or.inr ⟨Or.inr hp,
            fun hk => hnd.1 (hk ▸ List.mem_map_of_mem Prod.fst hp)⟩
      · rintro (rfl | ⟨hp, hk⟩)
        · exact Or.inl rfl
        · rcases hp with rfl | hp
          · exact absurd rfl hk
          · exact Or.inr hp
    · have ha : aset k v ((k', v') :: t) = (k', v') :: aset k v t := by simp [aset, h]
      rw [ha]
      simp only [List.mem_cons, ih hnd.2]
      constructor
      · rintro (rfl | rfl | ⟨hp, hk⟩)
        · exact Or.inr ⟨Or.inl rfl, h⟩
        · exact Or.inl rfl
        · exact Or.inr ⟨Or.inr hp, hk⟩
      · rintro (rfl | ⟨hp, hk⟩)
        · exact Or.inr (Or.inl rfl)
        · rcases hp with rfl | hp
          · exact Or.inl rfl
          · exact Or.inr (Or.inr ⟨hp, hk⟩)

@[simp] theorem mem_insSet {α : Type} [DecidableEq α] (x a : α) (l : List α) :
    a ∈ insSet x l ↔ a = x ∨ a ∈ l := by
  unfold insSet
  by_cases h : x ∈ l
  · simp only [if_pos h]
    constructor
    · exact Or.inr
    · rintro (rfl | ha)
      · exact h
      · exact ha
  · simp [if_neg h, or_comm]

@[simp] theorem mem_delSet {α : Type} [DecidableEq α] (x a : α) (l : List α) :
    a ∈ delSet x l ↔ a ∈ l ∧ a ≠ x := by
  simp [delSet]

theorem delSet_eq_self {α : Type} [DecidableEq α] {x : α} {l : List α} (h : x ∉ l) :
    delSet x l = l := by
  unfold delSet
  apply List.filter_eq_self.2
  intro a ha
  simp only [ne_eq, decide_eq_true_eq]
  exact fun hh => h (hh ▸ ha)

end OpenWire

namespace OpenWire

/-! ## Decimal rendering of counters and the nick-suffix loop

The Durable Object relay resolves nick collisions with
`while (takenNicks.has(nick)) nick = `${base}${counter++}`;` — the
template literal converts the counter to its decimal string.  We model
the conversion with a digits-based decimal renderer and prove that the
loop always escapes the (finite) set of taken nicks. -/

/-- Fuel-based core of the decimal renderer (most-significant digit
first); `fuel > n` iterations always suffice. -/
def natToStrCore : Nat → Nat → List Char
  | 0, _ => []
  | fuel + 1, n =>
    if n < 10 then [Nat.digitChar n]
    else natToStrCore fuel (n / 10) ++ [Nat.digitChar (n % 10)]

/-- Decimal string of a natural number (embedding of JavaScript
number-to-string conversion in the template literal). -/
def natToStr (n : Nat) : String := ⟨natToStrCore (n + 1) n⟩

theorem natToStrCore_eq_digits :
    ∀ (fuel n : Nat), 0 < n → n < fuel →
      natToStrCore fuel n = ((Nat.digits 10 n).map Nat.digitChar).reverse
  | 0, n, _, hf => absurd hf (by omega)
  | fuel + 1, n, hn, hf => by
    rw [natToStrCore]
    by_cases h10 : n < 10
    · rw [if_pos h10]
      rw [Nat.digits_def' (by norm_num : (1 : ℕ) < 10) hn]
      rw [Nat.div_eq_of_lt h10, Nat.digits_zero, Nat.mod_eq_of_lt h10]
      simp
    · rw [if_neg h10]
      have h1 : 0 < n / 10 := Nat.div_pos (by omega) (by norm_num)
      have h2 : n / 10 < fuel := by
        have := Nat.div_lt_self hn (by norm_num : 1 < 10)
        omega
      rw [natToStrCore_eq_digits fuel (n / 10) h1 h2]
      rw [Nat.digits_def' (by norm_num : (1 : ℕ) < 10) hn]
      simp

theorem natToStr_eq_digits {n : Nat} (hn : 0 < n) :
    natToStr n = ⟨((Nat.digits 10 n).map Nat.digitChar).reverse⟩ := by
  unfold natToStr
  rw [natToStrCore_eq_digits (n + 1) n hn (by omega)]

theorem digitChar_inj_lt : ∀ a < 10, ∀ b < 10,
    Nat.digitChar a = Nat.digitChar b → a = b := by decide

theorem map_digitChar_inj : ∀ (l₁ l₂ : List Nat), (∀ d ∈ l₁, d < 10) → (∀ d ∈ l₂, d < 10) →
    l₁.map Nat.digitChar = l₂.map Nat.digitChar → l₁ = l₂
  | [], [], _, _, _ => rfl
  | [], _ :: _, _, _, h => by simp at h
  | _ :: _, [], _, _, h => by simp at h
  | a :: t₁, b :: t₂, h₁, h₂, h => by
    simp only [List.map_cons, List.cons.injEq] at h
    have hab := digitChar_inj_lt a (h₁ a (List.mem_cons_self a t₁))
      b (h₂ b (List.mem_cons_self b t₂)) h.1
    subst hab
    rw [map_digitChar_inj t₁ t₂ (fun d hd => h₁ d (List.mem_cons_of_mem _ hd))
      (fun d hd => h₂ d (List.mem_cons_of_mem _ hd)) h.2]

theorem natToStr_zero : natToStr 0 = "0" := rfl

theorem natToStr_inj : ∀ {m n : Nat}, natToStr m = natToStr n → m = n := by
  intro m n h
  by_cases hm : m = 0 <;> by_cases hn : n = 0
  · omega
  · exfalso
    subst hm
    rw [natToStr_zero, natToStr_eq_digits (Nat.pos_of_ne_zero hn)] at h
    have hd : ['0'] = ((Nat.digits 10 n).map Nat.digitChar).reverse := congrArg String.data h
    have h1 : (Nat.digits 10 n).map Nat.digitChar = ['0'] := by
      have := congrArg List.reverse hd
      simpa using this.symm
    have h2 : Nat.digits 10 n = [0] :=
      map_digitChar_inj _ [0] (fun d hd => Nat.digits_lt_base (by norm_num) hd)
        (by simp) (by simpa using h1)
    have h3 := congrArg (Nat.ofDigits 10) h2
    rw [Nat.ofDigits_digits] at h3
    simp [Nat.ofDigits] at h3
    exact hn h3
  · exfalso
    subst hn
    rw [natToStr_zero, natToStr_eq_digits (Nat.pos_of_ne_zero hm)] at h
    have hd : ((Nat.digits 10 m).map Nat.digitChar).reverse = ['0'] := congrArg String.data h
    have h1 : (Nat.digits 10 m).map Nat.digitChar = ['0'] := by
      have := congrArg List.reverse hd
      simpa using this
    have h2 : Nat.digits 10 m = [0] :=
      map_digitChar_inj _ [0] (fun d hd => Nat.digits_lt_base (by norm_num) hd)
        (by simp) (by simpa using h1)
    have h3 := congrArg (Nat.ofDigits 10) h2
    rw [Nat.ofDigits_digits] at h3
    simp [Nat.ofDigits] at h3
    exact hm h3
  · rw [natToStr_eq_digits (Nat.pos_of_ne_zero hm),
      natToStr_eq_digits (Nat.pos_of_ne_zero hn)] at h
    have hd := congrArg String.data h
    simp only at hd
    have h1 : (Nat.digits 10 m).map Nat.digitChar = (Nat.digits 10 n).map Nat.digitChar := by
      have := congrArg List.reverse hd
      simpa using this
    have h2 : Nat.digits 10 m = Nat.digits 10 n :=
      map_digitChar_inj _ _ (fun d hd => Nat.digits_lt_base (by norm_num) hd)
        (fun d hd => Nat.digits_lt_base (by norm_num) hd) h1
    have := congrArg (Nat.ofDigits 10) h2
    rwa [Nat.ofDigits_digits, Nat.ofDigits_digits] at this

/-- Left-cancellation for string append. -/
theorem string_append_left_cancel {base x y : String} (h : base ++ x = base ++ y) : x = y := by
  have hd := congrArg String.data h
  rw [String.data_append, String.data_append] at hd
  exact String.ext (List.append_cancel_left hd)

/-- The suffix loop body: `while (takenNicks.has(nick)) nick = base + (counter++)`.
`fuel` bounds the iterations; the fallback branch is never reached when the
fuel exceeds the number of taken nicks (see `nickLoop_not_mem`). -/
def nickLoop (base : String) (taken : List String) : Nat → Nat → String
  | counter, 0 => base ++ natToStr counter
  | counter, fuel + 1 =>
    let cand := base ++ natToStr counter
    if cand ∈ taken then nickLoop base taken (counter + 1) fuel else cand

/-- Nick assignment of the Durable Object relay `join` handler: keep the
base nick if free, otherwise append the first numeric suffix `2, 3, …`
that makes it distinct from every taken nick. -/
def uniqueNick (base : String) (taken : List String) : String :=
  if base ∈ taken then nickLoop base taken 2 (taken.length + 1) else base

theorem nickLoop_not_mem {base : String} {taken : List String} :
    ∀ {fuel counter : Nat}, (∃ j, j < fuel ∧ base ++ natToStr (counter + j) ∉ taken) →
    nickLoop base taken counter fuel ∉ taken := by
  intro fuel
  induction fuel with
  | zero =>
    rintro counter ⟨j, hj, _⟩
    omega
  | succ n ih =>
    rintro counter ⟨j, hj, hfree⟩
    show (if base ++ natToStr counter ∈ taken then
        nickLoop base taken (counter + 1) n else base ++ natToStr counter) ∉ taken
    by_cases hc : base ++ natToStr counter ∈ taken
    · rw [if_pos hc]
      apply ih
      refine ⟨j - 1, ?_, ?_⟩
      · rcases Nat.eq_zero_or_pos j with rfl | hpos
        · exact absurd (by simpa using hfree) (by simpa using hc)
        · omega
      · have hj0 : j ≠ 0 := by
          rintro rfl
          exact hfree (by simpa using hc)
        have : counter + 1 + (j - 1) = counter + j := by omega
        rwa [this]
    · rwa [if_neg hc]

/-- Among `taken.length + 1` consecutive suffix candidates at least one is
not taken (the candidates are pairwise distinct, so they cannot all lie in
`taken`). -/
theorem exists_free_candidate (base : String) (taken : List String) (c0 : Nat) :
    ∃ j, j < taken.length + 1 ∧ base ++ natToStr (c0 + j) ∉ taken := by
  by_contra hcon
  push_neg at hcon
  have hsub : ((List.range (taken.length + 1)).map
      (fun j => base ++ natToStr (c0 + j))) ⊆ taken := by
    intro a ha
    rw [List.mem_map] at ha
    obtain ⟨j, hj, rfl⟩ := ha
    exact hcon j (List.mem_range.1 hj)
  have hinj : Function.Injective (fun j => base ++ natToStr (c0 + j)) := by
    intro a b hab
    have := natToStr_inj (string_append_left_cancel hab)
    omega
  have hnd : ((List.range (taken.length + 1)).map
      (fun j => base ++ natToStr (c0 + j))).Nodup :=
    List.Nodup.map hinj (List.nodup_range _)
  have hle := (List.subperm_of_subset hnd hsub).length_le
  simp at hle

/-- The assigned nick never collides with any taken nick. -/
theorem uniqueNick_not_mem (base : String) (taken : List String) :
    uniqueNick base taken ∉ taken := by
  unfold uniqueNick
  by_cases hb : base ∈ taken
  · rw [if_pos hb]
    exact nickLoop_not_mem (exists_free_candidate base taken 2)
  · rwa [if_neg hb]

/-- If the base nick is free it is kept unchanged. -/
theorem uniqueNick_of_not_mem {base : String} {taken : List String} (h : base ∉ taken) :
    uniqueNick base taken = base := by
  simp [uniqueNick, h]

end OpenWire

namespace OpenWire

/-! ## Data model

The shared relay state of both deployments:

* `peers : Map<ws, {peer_id, nick, rooms: Set<room_id>}>` — modelled as
  the insertion-ordered key list `reg` (the connections currently in the
  map) plus `locals`, the per-connection `peerInfo` closure variable.
  The two views alias the same session object in JavaScript: `join` sets
  both, and only the map (`reg`) shrinks on `close`/`error` while the
  closure variable survives.  A connection in `reg` always has an entry
  in `locals`.
* `rooms : Map<room_id, {name, members: Set<peer_id>}>`.
-/

/-- A peer session: `{ peer_id, nick, rooms: Set }` (`PeerSession`). -/
structure Session where
  peer_id : String
  nick : String
  rooms : List String
deriving DecidableEq, Repr

/-- A room: `{ name, members: Set<peer_id> }`. -/
structure Room where
  name : String
  members : List String
deriving DecidableEq, Repr

/-- The whole relay state.  Connections are numbered by `Nat`. -/
structure RelayState where
  /-- Per-connection `peerInfo` closure variable (absent = `null`). -/
  locals : List (Nat × Session)
  /-- The key set of the `peers` map, in insertion order.  The value for a
  key is the `locals` entry (in JavaScript they are the same object). -/
  reg : List Nat
  /-- The `rooms` map. -/
  rooms : List (String × Room)
deriving DecidableEq, Repr

/-- The empty initial state. -/
def initState : RelayState := ⟨[], [], []⟩

/-- Inbound requests (after `JSON.parse`); `unknown` stands for any frame
whose `type` matches no case of the dispatch switch. -/
inductive Req where
  | join (peer_id : Option String) (nick : Option String)
  | message (data : String)
  | room_create (name : Option String)
  | room_join (room_id : String)
  | room_invite (room_id : String) (peer_id : String)
  | room_message (room_id : String) (data : String)
  | room_leave (room_id : String)
  | room_list
  | unknown
deriving DecidableEq, Repr

/-- Outbound events.  The `welcome` nick field is `none` in the Node relay
(whose welcome payload has no `nick`) and `some` in the Durable Object
relay. -/
inductive Event where
  | welcome (peer_id : String) (nick : Option String)
      (peers : List (String × String)) (rooms : List (String × String × Nat))
  | peer_joined (peer_id nick : String)
  | peer_left (peer_id nick : String)
  | message (from_ nick data : String)
  | room_created (room_id name : String)
  | room_joined (room_id name : String)
  | room_peer_joined (room_id peer_id nick : String)
  | room_peer_left (room_id peer_id nick : String)
  | room_invite (room_id room_name from_ from_nick : String)
  | room_message (room_id from_ nick data : String)
  | room_list (rooms : List (String × String × Nat))
  | peers (peers : List (String × String)) (rooms : List (String × String × Nat))
  | error (message : String)
deriving DecidableEq, Repr

/-- One transport-level occurrence at a connection: an inbound parsed
frame (with the `crypto.randomUUID()` value this step would draw), a
close, or an error event. -/
inductive Action where
  | msg (c : Nat) (uuid : String) (req : Req)
  | close (c : Nat)
  | error (c : Nat)
deriving DecidableEq, Repr

/-- JavaScript `x || dflt` for an optional string field: `undefined` and
`""` are falsy. -/
def orFalsy : Option String → String → String
  | none, d => d
  | some s, d => if s = "" then d else s

/-- JavaScript `s.slice(0, n)` (truncation). -/
def strTake (s : String) (n : Nat) : String := ⟨s.data.take n⟩

/-- Sessions currently in the `peers` map, in map order
(`[...this.peers.values()]`). -/
def sessionsOf (st : RelayState) : List Session :=
  st.reg.filterMap (fun c => alookup c st.locals)

/-- `peerList()`: `{peer_id, nick}` of every mapped session. -/
def peerListOf (st : RelayState) : List (String × String) :=
  (sessionsOf st).map (fun s => (s.peer_id, s.nick))

/-- `roomList()`: `{room_id, name, members: count}` of every room. -/
def roomListOf (st : RelayState) : List (String × String × Nat) :=
  st.rooms.map (fun p => (p.1, p.2.name, p.2.members.length))

/-- `broadcast(obj, exclude)`: send to every connection in the `peers`
map except `exclude`. -/
def broadcastAll (st : RelayState) (ev : Event) (excl : Option Nat) : List (Nat × Event) :=
  st.reg.filterMap (fun c => if excl = some c then none else some (c, ev))

/-- `broadcastToRoom(room_id, obj, exclude)`: send to every mapped
connection whose session is a member of the room, except `exclude`. -/
def broadcastRoom (st : RelayState) (rid : String) (ev : Event) (excl : Option Nat) :
    List (Nat × Event) :=
  match alookup rid st.rooms with
  | none => []
  | some r =>
    st.reg.filterMap (fun c =>
      match alookup c st.locals with
      | none => none
      | some s =>
        if excl ≠ some c ∧ s.peer_id ∈ r.members then some (c, ev) else none)

/-- The linear scan of the `room_invite` handler: first mapped connection
whose session carries the target peer id. -/
def findConn (st : RelayState) (pid : String) : Option Nat :=
  st.reg.find? (fun c =>
    match alookup c st.locals with
    | some s => decide (s.peer_id = pid)
    | none => false)

/-- `leaveRoom(peerInfo, room_id, silent)`: remove the peer from the room
and the room from the peer; delete the room if it became empty, else
broadcast `room_peer_left` to the remaining members unless `silent`. -/
def leaveRoom (c : Nat) (rid : String) (silent : Bool) (st : RelayState) :
    RelayState × List (Nat × Event) :=
  match alookup c st.locals with
  | none => (st, [])
  | some s =>
    match alookup rid st.rooms with
    | none => (st, [])
    | some r =>
      let members' := delSet s.peer_id r.members
      let s' : Session := { s with rooms := delSet rid s.rooms }
      let st1 : RelayState := { st with locals := aset c s' st.locals }
      if members'.isEmpty then
        ({ st1 with rooms := adel rid st1.rooms }, [])
      else
        let st2 : RelayState := { st1 with rooms := aset rid { r with members := members' } st1.rooms }
        if silent then (st2, [])
        else (st2, broadcastRoom st2 rid (Event.room_peer_left rid s.peer_id s.nick) none)

/-- The behavioural differences between the Node relay (`server.js`) and
the Durable Object relay (`src/index.js`). -/
structure Shape where
  /-- Generated peer id from a fresh UUID (`crypto.randomUUID()` vs. its
  first 16 characters). -/
  genPid : String → String
  /-- Nick assignment at join (the DO truncates to 24 chars and suffixes
  against taken nicks; the Node relay uses the raw nick). -/
  mkNick : Option String → List String → String
  /-- Nick field of the welcome event (`some` in the DO, absent in Node). -/
  welcomeNick : String → Option String
  /-- Default room name (`"Untitled"` vs. `"Unnamed Room"`). -/
  defaultName : String
  /-- Room-name post-processing (the DO truncates to 50 chars). -/
  mkName : String → String
  /-- Text of the room-not-found error. -/
  notFound : String → String
  /-- Whether the `error` listener removes the connection from the map. -/
  errDeletes : Bool

/-- The message dispatch switch, common to both deployments. -/
def stepMsg (sh : Shape) (c : Nat) (uuid : String) (req : Req) (st : RelayState) :
    RelayState × List (Nat × Event) :=
  match req with
  | .join pid0 nick0 =>
    let peer_id := orFalsy pid0 (sh.genPid uuid)
    let taken := (sessionsOf st).map Session.nick
    let nick := sh.mkNick nick0 taken
    let s : Session := ⟨peer_id, nick, []⟩
    let st' : RelayState :=
      { st with locals := aset c s st.locals,
                reg := if c ∈ st.reg then st.reg else st.reg ++ [c] }
    (st', (c, Event.welcome peer_id (sh.welcomeNick nick) (peerListOf st') (roomListOf st')) ::
          broadcastAll st' (Event.peer_joined peer_id nick) (some c))
  | .message d =>
    match alookup c st.locals with
    | none => (st, [])
    | some s => (st, broadcastAll st (Event.message s.peer_id s.nick d) (some c))
  | .room_create name0 =>
    match alookup c st.locals with
    | none => (st, [])
    | some s =>
      let room_id := "room-" ++ strTake uuid 16
      let name := sh.mkName (orFalsy name0 sh.defaultName)
      let st1 : RelayState :=
        { st with rooms := aset room_id ⟨name, [s.peer_id]⟩ st.rooms,
                  locals := aset c { s with rooms := insSet room_id s.rooms } st.locals }
      (st1, (c, Event.room_created room_id name) ::
            broadcastAll st1 (Event.peers (peerListOf st1) (roomListOf st1)) none)
  | .room_join rid =>
    match alookup c st.locals with
    | none => (st, [])
    | some s =>
      match alookup rid st.rooms with
      | none => (st, [(c, Event.error (sh.notFound rid))])
      | some r =>
        let st1 : RelayState :=
          { st with rooms := aset rid { r with members := insSet s.peer_id r.members } st.rooms,
                    locals := aset c { s with rooms := insSet rid s.rooms } st.locals }
        (st1, broadcastRoom st1 rid (Event.room_peer_joined rid s.peer_id s.nick) none
              ++ [(c, Event.room_joined rid r.name)])
  | .room_invite rid target =>
    match alookup c st.locals with
    | none => (st, [])
    | some s =>
      match alookup rid st.rooms with
      | none => (st, [])
      | some r =>
        match findConn st target with
        | none => (st, [])
        | some cT => (st, [(cT, Event.room_invite rid r.name s.peer_id s.nick)])
  | .room_message rid d =>
    match alookup c st.locals with
    | none => (st, [])
    | some s => (st, broadcastRoom st rid (Event.room_message rid s.peer_id s.nick d) (some c))
  | .room_leave rid =>
    match alookup c st.locals with
    | none => (st, [])
    | some _ => leaveRoom c rid false st
  | .room_list =>
    (st, [(c, Event.room_list (roomListOf st))])
  | .unknown => (st, [])

/-- The `close` listener: leave every room silently, remove the session
from the map, then broadcast one `peer_left`. -/
def handleClose (c : Nat) (st : RelayState) : RelayState × List (Nat × Event) :=
  match alookup c st.locals with
  | none => (st, [])
  | some s =>
    let p := s.rooms.foldl
      (fun (p : RelayState × List (Nat × Event)) rid =>
        let q := leaveRoom c rid true p.1
        (q.1, p.2 ++ q.2)) (st, [])
    let st2 : RelayState := { p.1 with reg := p.1.reg.filter (fun c' => c' ≠ c) }
    (st2, p.2 ++ broadcastAll st2 (Event.peer_left s.peer_id s.nick) none)

/-- One transport occurrence.  The Node relay's `error` listener is a
no-op; the Durable Object's removes the connection from the map. -/
def step (sh : Shape) : Action → RelayState → RelayState × List (Nat × Event)
  | .msg c uuid req, st => stepMsg sh c uuid req st
  | .close c, st => handleClose c st
  | .error c, st =>
    if sh.errDeletes then ({ st with reg := st.reg.filter (fun c' => c' ≠ c) }, [])
    else (st, [])

/-- The Durable Object relay (`openwire-relay/src/index.js`). -/
def shapeDO : Shape :=
  { genPid := fun u => strTake u 16
    mkNick := fun n taken => uniqueNick (strTake (orFalsy n "Anonymous") 24) taken
    welcomeNick := fun n => some n
    defaultName := "Untitled"
    mkName := fun n => strTake n 50
    notFound := fun _ => "Room not found"
    errDeletes := true }

/-- The Node relay (`openwire-relay/server.js`). -/
def shapeServer : Shape :=
  { genPid := fun u => u
    mkNick := fun n _ => orFalsy n "Anonymous"
    welcomeNick := fun _ => none
    defaultName := "Unnamed Room"
    mkName := fun n => n
    notFound := fun rid => "Room " ++ rid ++ " not found"
    errDeletes := false }

/-- One step of the Durable Object relay. -/
def stepDO : Action → RelayState → RelayState × List (Nat × Event) := step shapeDO

/-- One step of the Node relay. -/
def stepServer : Action → RelayState → RelayState × List (Nat × Event) := step shapeServer

/-- Run a sequence of actions (states only). -/
def runDO (tr : List Action) (st : RelayState) : RelayState :=
  tr.foldl (fun s a => (stepDO a s).1) st

/-- Run a sequence of actions on the Node relay (states only). -/
def runServer (tr : List Action) (st : RelayState) : RelayState :=
  tr.foldl (fun s a => (stepServer a s).1) st

end OpenWire

namespace OpenWire

/-! ## Further lemmas about the map/set helpers and broadcasts -/

theorem aset_eq_self {κ α : Type} [DecidableEq κ] {k : κ} {v : α} :
    ∀ {l : List (κ × α)}, alookup k l = some v → aset k v l = l
  | [], h => by simp [alookup] at h
  | (k', v') :: t, h => by
    by_cases hk : k' = k
    · subst hk
      simp [alookup] at h
      simp [aset, h]
    · simp only [alookup_cons, if_neg hk] at h
      simp [aset, hk, aset_eq_self h]

theorem adel_cons {κ α : Type} [DecidableEq κ] (k k' : κ) (v' : α) (t : List (κ × α)) :
    adel k ((k', v') :: t) = if k' = k then adel k t else (k', v') :: adel k t := by
  by_cases hk : k' = k <;> simp [adel, List.filter_cons, hk]

@[simp] theorem alookup_adel_self {κ α : Type} [DecidableEq κ] (k : κ) :
    ∀ (l : List (κ × α)), alookup k (adel k l) = none
  | [] => rfl
  | (k', v') :: t => by
    rw [adel_cons]
    by_cases hk : k' = k
    · rw [if_pos hk]
      exact alookup_adel_self k t
    · rw [if_neg hk, alookup_cons, if_neg hk]
      exact alookup_adel_self k t

theorem alookup_adel_ne {κ α : Type} [DecidableEq κ] {k k' : κ} (h : k' ≠ k) :
    ∀ (l : List (κ × α)), alookup k' (adel k l) = alookup k' l
  | [] => rfl
  | (k₀, v₀) :: t => by
    rw [adel_cons]
    by_cases hk : k₀ = k
    · rw [if_pos hk, alookup_cons]
      have hne : ¬k₀ = k' := fun hh => h (hh ▸ hk)
      rw [if_neg hne]
      exact alookup_adel_ne h t
    · rw [if_neg hk, alookup_cons, alookup_cons]
      by_cases h₁ : k₀ = k'
      · rw [if_pos h₁, if_pos h₁]
      · rw [if_neg h₁, if_neg h₁]
        exact alookup_adel_ne h t

theorem alookup_eq_none_iff {κ α : Type} [DecidableEq κ] {k : κ} :
    ∀ {l : List (κ × α)}, alookup k l = none ↔ k ∉ l.map Prod.fst
  | [] => by simp
  | (k', v') :: t => by
    by_cases hk : k' = k
    · subst hk
      simp [alookup]
    · simp only [alookup_cons, if_neg hk, List.map_cons, List.mem_cons]
      rw [alookup_eq_none_iff]
      constructor
      · intro h hmem
        rcases hmem with hh | hmem
        · exact hk hh.symm
        · exact h hmem
      · intro h hmem
        exact h (Or.inr hmem)

theorem alookup_isSome_of_mem_keys {κ α : Type} [DecidableEq κ] {k : κ} {l : List (κ × α)}
    (h : k ∈ l.map Prod.fst) : ∃ v, alookup k l = some v := by
  rcases ho : alookup k l with _ | v
  · exact absurd h (alookup_eq_none_iff.1 ho)
  · exact ⟨v, rfl⟩

/-- `broadcast` without an exclusion reaches every mapped connection once. -/
theorem broadcastAll_none (st : RelayState) (ev : Event) :
    broadcastAll st ev none = st.reg.map (fun c => (c, ev)) := by
  unfold broadcastAll
  induction st.reg with
  | nil => rfl
  | cons a t ih => simp_all [List.filterMap_cons]

theorem length_strTake_le (s : String) (n : Nat) : (strTake s n).length ≤ n := by
  simp only [strTake, String.length]
  exact List.length_take_le n s.data

theorem strTake_of_le {s : String} {n : Nat} (h : s.length ≤ n) : strTake s n = s := by
  simp only [strTake]
  have : s.data.take n = s.data := List.take_of_length_le h
  rw [this]

/-- A mapped session is among `sessionsOf`. -/
theorem mem_sessionsOf {st : RelayState} {c : Nat} {s : Session}
    (hreg : c ∈ st.reg) (hloc : alookup c st.locals = some s) : s ∈ sessionsOf st := by
  unfold sessionsOf
  rw [List.mem_filterMap]
  exact ⟨c, hreg, hloc⟩

/-- Counting an element of a keyed `filterMap` over a nodup key list: the
key occurs exactly once, so its image occurs exactly once. -/
theorem count_filterMap_keyed {β : Type} [BEq β] [LawfulBEq β]
    (key : β → Nat) :
    ∀ (l : List Nat) (f : Nat → Option β), (∀ x y, f x = some y → key y = x) →
      l.Nodup → ∀ (c' : Nat) (p : β), f c' = some p → c' ∈ l →
      List.count p (l.filterMap f) = 1
  | [], _, _, _, c', p, _, hmem => absurd hmem (List.not_mem_nil c')
  | a :: t, f, hkey, hnd, c', p, hf, hmem => by
    rw [List.nodup_cons] at hnd
    rcases List.mem_cons.1 hmem with rfl | hmem
    · rw [List.filterMap_cons, hf, List.count_cons_self]
      have hz : p ∉ t.filterMap f := by
        rw [List.mem_filterMap]
        rintro ⟨x, hx, hfx⟩
        have := hkey x p hfx
        rw [hkey c' p hf] at this
        exact hnd.1 (this ▸ hx)
      rw [List.count_eq_zero.2 hz]
    · have hne : a ≠ c' := fun hh => hnd.1 (hh ▸ hmem)
      rw [List.filterMap_cons]
      rcases hfa : f a with _ | q
      · exact count_filterMap_keyed key t f hkey hnd.2 c' p hf hmem
      · have hq : q ≠ p := by
          intro hh
          subst hh
          exact hne ((hkey a q hfa).symm.trans (hkey c' q hf))
        rw [List.count_cons_of_ne (fun hh => hq hh.symm)]
        exact count_filterMap_keyed key t f hkey hnd.2 c' p hf hmem

end OpenWire

namespace OpenWire

/-! ## C1 — invite gating of `room_join`

The specification requires a bare `room_join` to succeed only for a
peer holding an outstanding invite (or the creator), all other attempts
failing with `InviteRequired`.  The relay keeps no invite state at all:
the `room_join` handler admits any mapped peer into any existing room.
The fixture below is a state with two connected peers where `z` (conn 2)
holds no invite for room `r1` and is not its creator (`a` created it). -/

/-- Fixture for C1: peer `a` (conn 1) is the creator and sole member of
room `r1`; peer `z` (conn 2) holds no invite. -/
def stC1 : RelayState :=
  ⟨[(1, ⟨"a", "Ann", ["r1"]⟩), (2, ⟨"z", "Zed", []⟩)], [1, 2], [("r1", ⟨"Club", ["a"]⟩)]⟩

/-- **C1** (code_bug evaluation): a `room_join` by a peer with no invite
who is not the creator nevertheless succeeds — `z` is added to the
members of `r1`, the room broadcast `room_peer_joined` fires and `z`
receives `room_joined`; no `InviteRequired` error is produced.  This is
the behaviour the specification flags in its §9 gap note. -/
theorem C1_join_without_invite_succeeds :
    stepDO (.msg 2 "u" (.room_join "r1")) stC1 =
      (⟨[(1, ⟨"a", "Ann", ["r1"]⟩), (2, ⟨"z", "Zed", ["r1"]⟩)], [1, 2],
        [("r1", ⟨"Club", ["a", "z"]⟩)]⟩,
       [(1, .room_peer_joined "r1" "z" "Zed"), (2, .room_peer_joined "r1" "z" "Zed"),
        (2, .room_joined "r1" "Club")]) := by decide

/-! ## C2 — inviter-membership check of `room_invite`

The specification requires `room_invite` from a non-member to fail with
`InviteAuthorization` and deliver nothing.  Neither relay checks the
inviter's membership: the handler only requires that the room exist and
the target be connected. -/

/-- Fixture for C2: `x` (conn 1) is *not* a member of room `r1`; `y`
(conn 2) is the invite target; `o` (conn 3) is the sole member. -/
def stC2 : RelayState :=
  ⟨[(1, ⟨"x", "Xena", []⟩), (2, ⟨"y", "Yorick", []⟩), (3, ⟨"o", "Owl", ["r1"]⟩)],
   [1, 2, 3], [("r1", ⟨"Roost", ["o"]⟩)]⟩

/-- **C2** (code_bug evaluation): a `room_invite` from non-member `x`
delivers the `room_invite` event to the target `y` and produces no
`InviteAuthorization` error — contrary to the specified guard.  This is
the behaviour the specification flags in its §9 gap note. -/
theorem C2_invite_by_non_member_delivered :
    stepDO (.msg 1 "u" (.room_invite "r1" "y")) stC2 =
      (stC2, [(2, .room_invite "r1" "Roost" "x" "Xena")]) := by decide

/-! ## C9 — requests on a sessionless connection

Every handler except `join` begins with `if (!peerInfo) return;` — except
`room_list`, which both relays answer even when no session exists on the
connection.  So the claim "every non-join request — including
`room_list` — is dropped silently" fails exactly at `room_list`. -/

/-- Fixture for C9: one mapped peer and one room; connection 5 has no
session. -/
def stC9 : RelayState := ⟨[(1, ⟨"a", "Ann", []⟩)], [1], [("r1", ⟨"Club", ["a"]⟩)]⟩

/-- **C9** (counterexample): a `room_list` request on the sessionless
connection 5 is answered with a `room_list` event rather than dropped. -/
theorem C9_counterexample_room_list_answered :
    (stepDO (.msg 5 "u" .room_list) stC9).2 = [(5, .room_list [("r1", "Club", 1)])] ∧
    (stepDO (.msg 5 "u" .room_list) stC9).2 ≠ [] := by decide

/-- **C9** (amended): on a connection with no session, every non-join
request other than `room_list` is dropped silently (state unchanged, no
event to anyone); `room_list` leaves the state unchanged but is answered
with a `room_list` event unicast to the requester. -/
theorem C9_amended_anonymous_requests (st : RelayState) (c : Nat) (u : String) (req : Req)
    (h1 : alookup c st.locals = none) (h2 : ∀ p n, req ≠ .join p n) :
    stepDO (.msg c u req) st =
      (st, if req = .room_list then [(c, Event.room_list (roomListOf st))] else []) := by
  cases req with
  | join p n => exact absurd rfl (h2 p n)
  | message d => simp [stepDO, step, stepMsg, h1]
  | room_create n => simp [stepDO, step, stepMsg, h1]
  | room_join r => simp [stepDO, step, stepMsg, h1]
  | room_invite r p => simp [stepDO, step, stepMsg, h1]
  | room_message r d => simp [stepDO, step, stepMsg, h1]
  | room_leave r => simp [stepDO, step, stepMsg, h1]
  | room_list => simp [stepDO, step, stepMsg]
  | unknown => simp [stepDO, step, stepMsg]

/-- Witness for `C9_amended_anonymous_requests` at a concrete sessionless
connection and request. -/
theorem C9_amended_witness :
    stepDO (.msg 5 "u" (.room_message "r1" "hi")) stC9 = (stC9, []) :=
  (C9_amended_anonymous_requests stC9 5 "u" (.room_message "r1" "hi") (by decide)
    (fun p n => by simp)).trans (by decide)

end OpenWire

namespace OpenWire

/-! ## C8 — `room_leave` on a room the peer is not a member of

`leaveRoom` never checks membership: it deletes the peer from the member
set (a no-op when absent), and — when the room is still non-empty and
the call is not silent — always broadcasts `room_peer_left` to the
remaining members.  So a non-member `room_leave` leaves the state
unchanged but is *not* silent: the room's members receive a spurious
`room_peer_left` for a peer that was never in the room. -/

/-- Fixture for C8: `q` (conn 1) is the sole member of `r1`; `p`
(conn 2) is not a member. -/
def stC8 : RelayState :=
  ⟨[(1, ⟨"q", "Quinn", ["r1"]⟩), (2, ⟨"p", "Pat", []⟩)], [1, 2], [("r1", ⟨"Roost", ["q"]⟩)]⟩

/-- **C8** (counterexample): non-member `p` issuing `room_leave r1`
leaves the state unchanged but causes a `room_peer_left` event to be
sent to member `q` — refuting "no event is sent to any connection". -/
theorem C8_counterexample_spurious_room_peer_left :
    stepDO (.msg 2 "u" (.room_leave "r1")) stC8 =
      (stC8, [(1, .room_peer_left "r1" "p" "Pat")]) ∧
    (stepDO (.msg 2 "u" (.room_leave "r1")) stC8).2 ≠ [] := by decide

/-- **C8** (amended): a `room_leave` from a mapped peer on an existing
room of which it is not a member (and which is not in its `memberRooms`)
leaves the registry and the room directory completely unchanged, but
when the room still has members it broadcasts a `room_peer_left` event
for the leaver to the room's member connections. -/
theorem C8_amended_nonmember_leave (st : RelayState) (c : Nat) (u : String) (rid : String)
    (s : Session) (r : Room)
    (h1 : alookup c st.locals = some s) (h2 : alookup rid st.rooms = some r)
    (h3 : s.peer_id ∉ r.members) (h4 : rid ∉ s.rooms) (h5 : r.members ≠ []) :
    stepDO (.msg c u (.room_leave rid)) st =
      (st, broadcastRoom st rid (Event.room_peer_left rid s.peer_id s.nick) none) := by
  have hm' : delSet s.peer_id r.members = r.members := delSet_eq_self h3
  have hs' : delSet rid s.rooms = s.rooms := delSet_eq_self h4
  have hne : r.members.isEmpty = false := by
    cases hmem : r.members with
    | nil => exact absurd hmem h5
    | cons a t => rfl
  have hsfix : { s with rooms := delSet rid s.rooms } = s := by rw [hs']
  have hrfix : { r with members := delSet s.peer_id r.members } = r := by rw [hm']
  simp only [stepDO, step, stepMsg, h1, leaveRoom, h2, hsfix, hrfix, hm', hne,
    aset_eq_self h1, aset_eq_self h2, Bool.false_eq_true, if_false]

/-- Witness for `C8_amended_nonmember_leave` at the C8 fixture. -/
theorem C8_amended_witness :
    stepDO (.msg 2 "u" (.room_leave "r1")) stC8 =
      (stC8, broadcastRoom stC8 "r1" (Event.room_peer_left "r1" "p" "Pat") none) :=
  C8_amended_nonmember_leave stC8 2 "u" "r1" ⟨"p", "Pat", []⟩ ⟨"Roost", ["q"]⟩
    (by decide) (by decide) (by decide) (by decide) (by decide)

end OpenWire

namespace OpenWire

/-! ## C10 — a second `join` on a connection with a live session

The `join` case performs no check for an existing session: it overwrites
the `peers` map entry (`peers.set(ws, peerInfo)`) with a brand-new
session whose `rooms` set is empty, emits a fresh welcome and
`peer_joined`, and touches no room — so every membership of the replaced
session survives in the room directory. -/

/-- **C10**: processing a `join` on a connection that already has a
session installs a fresh `PeerSession` with empty `memberRooms`, leaves
the room directory entirely unchanged (so the old session's `peer_id`
stays in every room it had joined), keeps the map key set, and emits a
new `welcome` to the requester followed by a `peer_joined` broadcast
excluding it. -/
theorem C10_rejoin_replaces_session (st : RelayState) (c : Nat) (uuid : String)
    (pid0 nick0 : Option String) (sOld : Session)
    (h1 : alookup c st.locals = some sOld) (h2 : c ∈ st.reg) :
    (stepDO (.msg c uuid (.join pid0 nick0)) st).1.rooms = st.rooms ∧
    (stepDO (.msg c uuid (.join pid0 nick0)) st).1.reg = st.reg ∧
    alookup c (stepDO (.msg c uuid (.join pid0 nick0)) st).1.locals =
      some ⟨orFalsy pid0 (strTake uuid 16),
            uniqueNick (strTake (orFalsy nick0 "Anonymous") 24)
              ((sessionsOf st).map Session.nick), []⟩ ∧
    (stepDO (.msg c uuid (.join pid0 nick0)) st).2 =
      (c, Event.welcome (orFalsy pid0 (strTake uuid 16))
            (some (uniqueNick (strTake (orFalsy nick0 "Anonymous") 24)
              ((sessionsOf st).map Session.nick)))
            (peerListOf (stepDO (.msg c uuid (.join pid0 nick0)) st).1)
            (roomListOf (stepDO (.msg c uuid (.join pid0 nick0)) st).1)) ::
        broadcastAll (stepDO (.msg c uuid (.join pid0 nick0)) st).1
          (Event.peer_joined (orFalsy pid0 (strTake uuid 16))
            (uniqueNick (strTake (orFalsy nick0 "Anonymous") 24)
              ((sessionsOf st).map Session.nick))) (some c) ∧
    (∀ rid r, alookup rid st.rooms = some r → sOld.peer_id ∈ r.members →
      ∃ r', alookup rid (stepDO (.msg c uuid (.join pid0 nick0)) st).1.rooms = some r' ∧
        sOld.peer_id ∈ r'.members) := by
  refine ⟨?_, ?_, ?_, ?_, ?_⟩
  · simp [stepDO, step, stepMsg]
  · simp [stepDO, step, stepMsg, h2]
  · simp [stepDO, step, stepMsg, shapeDO]
  · simp [stepDO, step, stepMsg, shapeDO]
  · intro rid r hr hmem
    refine ⟨r, ?_, hmem⟩
    have : (stepDO (.msg c uuid (.join pid0 nick0)) st).1.rooms = st.rooms := by
      simp [stepDO, step, stepMsg]
    rw [this]
    exact hr

/-- Fixture for the C10 witness: conn 1 already holds a session `a`
which is the sole member of room `r1`. -/
def stC10 : RelayState := ⟨[(1, ⟨"a", "Ann", ["r1"]⟩)], [1], [("r1", ⟨"Club", ["a"]⟩)]⟩

/-- Witness for `C10_rejoin_replaces_session` at a concrete re-join. -/
theorem C10_witness :
    (stepDO (.msg 1 "u" (.join (some "a") (some "Bo"))) stC10).1.rooms = stC10.rooms :=
  (C10_rejoin_replaces_session stC10 1 "u" (some "a") (some "Bo") ⟨"a", "Ann", ["r1"]⟩
    (by decide) (by decide)).1

end OpenWire

namespace OpenWire

/-! ## C7 — `room_message` fan-out

`room_message` broadcasts to exactly the mapped connections whose
session's `peer_id` is in the room's member set, excluding the sender's
connection, and changes no state. -/

/-- **C7**: processing `room_message{room_id, data}` from a mapped
sender leaves the state unchanged, delivers exactly one `room_message`
event (carrying the payload) to every mapped connection of a member of
the room other than the sender, delivers nothing to any connection whose
session is not a member, nothing to the sender, and every emitted event
is that `room_message`. -/
theorem C7_room_message_fanout (st : RelayState) (c : Nat) (u : String) (rid d : String)
    (s : Session) (r : Room)
    (h1 : alookup c st.locals = some s) (h2 : alookup rid st.rooms = some r)
    (hnd : st.reg.Nodup) :
    (stepDO (.msg c u (.room_message rid d)) st).1 = st ∧
    (∀ c' t, c' ∈ st.reg → c' ≠ c → alookup c' st.locals = some t → t.peer_id ∈ r.members →
      List.count (c', Event.room_message rid s.peer_id s.nick d)
        (stepDO (.msg c u (.room_message rid d)) st).2 = 1) ∧
    (∀ c' t, alookup c' st.locals = some t → t.peer_id ∉ r.members →
      ∀ e, (c', e) ∉ (stepDO (.msg c u (.room_message rid d)) st).2) ∧
    (∀ e, (c, e) ∉ (stepDO (.msg c u (.room_message rid d)) st).2) ∧
    (∀ p ∈ (stepDO (.msg c u (.room_message rid d)) st).2,
      p.2 = Event.room_message rid s.peer_id s.nick d) := by
  have hst : (stepDO (.msg c u (.room_message rid d)) st).1 = st := by
    simp [stepDO, step, stepMsg, h1, broadcastRoom, h2]
  have hout : (stepDO (.msg c u (.room_message rid d)) st).2 =
      st.reg.filterMap (fun c'' =>
        match alookup c'' st.locals with
        | none => none
        | some s' =>
          if (some c : Option Nat) ≠ some c'' ∧ s'.peer_id ∈ r.members
            then some (c'', Event.room_message rid s.peer_id s.nick d) else none) := by
    simp [stepDO, step, stepMsg, h1, broadcastRoom, h2]
  have hkey : ∀ x (y : Nat × Event),
      (match alookup x st.locals with
        | none => none
        | some s' =>
          if (some c : Option Nat) ≠ some x ∧ s'.peer_id ∈ r.members
            then some (x, Event.room_message rid s.peer_id s.nick d) else none) = some y →
      y.1 = x := by
    intro x y hxy
    cases hal : alookup x st.locals with
    | none =>
      simp only [hal] at hxy
      exact Option.noConfusion hxy
    | some s' =>
      simp only [hal] at hxy
      by_cases hc : (some c : Option Nat) ≠ some x ∧ s'.peer_id ∈ r.members
      · rw [if_pos hc] at hxy
        cases hxy
        rfl
      · rw [if_neg hc] at hxy
        cases hxy
  refine ⟨hst, ?_, ?_, ?_, ?_⟩
  · intro c' t hreg hne hal hmem
    rw [hout]
    refine count_filterMap_keyed Prod.fst st.reg _ hkey hnd c' _ ?_ hreg
    simp only [hal]
    rw [if_pos ⟨fun hh => hne (Option.some.inj hh).symm, hmem⟩]
  · intro c' t hal hmem e hin
    rw [hout] at hin
    rw [List.mem_filterMap] at hin
    obtain ⟨x, hx, hfx⟩ := hin
    have hx1 : x = c' := (hkey x (c', e) hfx).symm
    subst hx1
    simp only [hal] at hfx
    by_cases hc : (some c : Option Nat) ≠ some x ∧ t.peer_id ∈ r.members
    · exact hmem hc.2
    · rw [if_neg hc] at hfx
      cases hfx
  · intro e hin
    rw [hout] at hin
    rw [List.mem_filterMap] at hin
    obtain ⟨x, hx, hfx⟩ := hin
    have hx1 : x = c := (hkey x (c, e) hfx).symm
    subst hx1
    cases hal : alookup x st.locals with
    | none =>
      simp only [hal] at hfx
      exact Option.noConfusion hfx
    | some s' =>
      simp only [hal] at hfx
      by_cases hc : (some x : Option Nat) ≠ some x ∧ s'.peer_id ∈ r.members
      · exact hc.1 rfl
      · rw [if_neg hc] at hfx
        cases hfx
  · intro p hp
    rw [hout] at hp
    rw [List.mem_filterMap] at hp
    obtain ⟨x, hx, hfx⟩ := hp
    cases hal : alookup x st.locals with
    | none =>
      simp only [hal] at hfx
      exact Option.noConfusion hfx
    | some s' =>
      simp only [hal] at hfx
      by_cases hc : (some c : Option Nat) ≠ some x ∧ s'.peer_id ∈ r.members
      · rw [if_pos hc] at hfx
        cases hfx
        rfl
      · rw [if_neg hc] at hfx
        cases hfx

/-- Fixture for the C7 witness: sender `a` (conn 1) and fellow member
`b` (conn 2) in room `r1`, outsider `z` (conn 3). -/
def stC7 : RelayState :=
  ⟨[(1, ⟨"a", "Ann", ["r1"]⟩), (2, ⟨"b", "Bo", ["r1"]⟩), (3, ⟨"z", "Zed", []⟩)],
   [1, 2, 3], [("r1", ⟨"Club", ["a", "b"]⟩)]⟩

/-- Witness for `C7_room_message_fanout`: member `b` receives the
message exactly once. -/
theorem C7_witness :
    List.count (2, Event.room_message "r1" "a" "Ann" "hi")
      (stepDO (.msg 1 "u" (.room_message "r1" "hi")) stC7).2 = 1 :=
  (C7_room_message_fanout stC7 1 "u" "r1" "hi" ⟨"a", "Ann", ["r1"]⟩ ⟨"Club", ["a", "b"]⟩
    (by decide) (by decide) (by decide)).2.1 2 ⟨"b", "Bo", ["r1"]⟩
    (by decide) (by decide) (by decide) (by decide)

end OpenWire

namespace OpenWire

/-! ## C4 — nick uniqueness and the 24-character limit

The Durable Object relay truncates the requested nick to 24 characters
*before* the collision loop, then appends the numeric suffix without
re-truncating, so a colliding 24-character nick is assigned a
25-character result.  (The Node relay performs no truncation or
suffixing at all.)  Distinctness from every currently-connected nick
does hold: the loop only stops at a candidate outside the taken set. -/

/-- Fixture for C4: one connected session whose nick is a 24-character
string. -/
def stC4 : RelayState :=
  (stepDO (.msg 1 "u1" (.join (some "a") (some "AAAAAAAAAAAAAAAAAAAAAAAA"))) initState).1

/-- **C4** (counterexample): a second join requesting the same
24-character nick is assigned the suffixed nick `"A…A2"` of length 25 —
the suffixed result is not truncated to the 24-character limit. -/
theorem C4_counterexample_suffix_exceeds_limit :
    alookup 2 ((stepDO (.msg 2 "u2" (.join (some "b") (some "AAAAAAAAAAAAAAAAAAAAAAAA")))
        stC4).1.locals) =
      some ⟨"b", "AAAAAAAAAAAAAAAAAAAAAAAA2", []⟩ ∧
    ("AAAAAAAAAAAAAAAAAAAAAAAA2" : String).length = 25 ∧
    ¬("AAAAAAAAAAAAAAAAAAAAAAAA2" : String).length ≤ 24 := by decide

/-- **C4** (amended, Durable Object relay): every join is assigned a
nick that is distinct from the nick of every currently connected
session; the *requested* nick is truncated to 24 characters before the
collision check, and when no collision occurs the assigned nick keeps
that bound — but a numeric suffix is appended without re-truncation. -/
theorem C4_amended_join_nick (st : RelayState) (c : Nat) (uuid : String)
    (pid0 nick0 : Option String) :
    ∃ s, alookup c ((stepDO (.msg c uuid (.join pid0 nick0)) st).1.locals) = some s ∧
      s.nick ∉ (sessionsOf st).map Session.nick ∧
      (∀ c' t, c' ∈ st.reg → alookup c' st.locals = some t → t.nick ≠ s.nick) ∧
      (strTake (orFalsy nick0 "Anonymous") 24 ∉ (sessionsOf st).map Session.nick →
        s.nick.length ≤ 24) := by
  refine ⟨⟨orFalsy pid0 (strTake uuid 16),
    uniqueNick (strTake (orFalsy nick0 "Anonymous") 24) ((sessionsOf st).map Session.nick),
    []⟩, ?_, ?_, ?_, ?_⟩
  · simp [stepDO, step, stepMsg, shapeDO]
  · exact uniqueNick_not_mem _ _
  · intro c' t hreg hal hnick
    have ht : t ∈ sessionsOf st := mem_sessionsOf hreg hal
    have : t.nick ∈ (sessionsOf st).map Session.nick := List.mem_map_of_mem Session.nick ht
    rw [hnick] at this
    exact uniqueNick_not_mem _ _ this
  · intro hfree
    rw [uniqueNick_of_not_mem hfree]
    exact length_strTake_le _ _

/-- Witness for `C4_amended_join_nick` at a concrete join on the C4
fixture. -/
theorem C4_amended_witness :
    ∃ s, alookup 2 ((stepDO (.msg 2 "u2" (.join (some "b") (some "Bo"))) stC4).1.locals) =
        some s ∧
      s.nick ∉ (sessionsOf stC4).map Session.nick ∧
      (∀ c' t, c' ∈ stC4.reg → alookup c' stC4.locals = some t → t.nick ≠ s.nick) ∧
      (strTake (orFalsy (some "Bo") "Anonymous") 24 ∉ (sessionsOf stC4).map Session.nick →
        s.nick.length ≤ 24) :=
  C4_amended_join_nick stC4 2 "u2" (some "b") (some "Bo")

end OpenWire

namespace OpenWire

/-! ## C5 — the disconnect cascade

The `close` listener leaves every room in the session's `rooms` set with
`silent = true` (emitting nothing), removes the connection from the
`peers` map, then broadcasts exactly one `peer_left` to the remaining
mapped connections. -/

/-- A silent `leaveRoom` emits no events. -/
theorem leaveRoom_silent_snd (c : Nat) (rid : String) (st : RelayState) :
    (leaveRoom c rid true st).2 = [] := by
  unfold leaveRoom
  cases alookup c st.locals with
  | none => rfl
  | some s =>
    cases alookup rid st.rooms with
    | none => rfl
    | some r =>
      by_cases he : (delSet s.peer_id r.members).isEmpty = true
      · simp [he]
      · simp [he]

/-- `leaveRoom` never touches the `peers` map key set. -/
theorem leaveRoom_reg (c : Nat) (rid : String) (si : Bool) (st : RelayState) :
    (leaveRoom c rid si st).1.reg = st.reg := by
  unfold leaveRoom
  cases alookup c st.locals with
  | none => rfl
  | some s =>
    cases alookup rid st.rooms with
    | none => rfl
    | some r =>
      by_cases he : (delSet s.peer_id r.members).isEmpty = true
      · simp [he]
      · by_cases hs : si <;> simp [he, hs]

/-- Characterisation of the `locals` component after `leaveRoom`. -/
theorem leaveRoom_locals_char (c : Nat) (rid : String) (si : Bool) (st : RelayState) :
    (leaveRoom c rid si st).1.locals = st.locals ∨
    ∃ s, alookup c st.locals = some s ∧
      (leaveRoom c rid si st).1.locals =
        aset c { s with rooms := delSet rid s.rooms } st.locals := by
  unfold leaveRoom
  cases hl : alookup c st.locals with
  | none => exact Or.inl rfl
  | some s =>
    cases hr : alookup rid st.rooms with
    | none => exact Or.inl rfl
    | some r =>
      refine Or.inr ⟨s, rfl, ?_⟩
      by_cases he : (delSet s.peer_id r.members).isEmpty = true
      · simp [he]
      · by_cases hs : si <;> simp [he, hs]

/-- `leaveRoom` preserves every connection's peer id and nick. -/
theorem leaveRoom_alookup_pid (c' : Nat) (rid' : String) (si : Bool) (st : RelayState)
    (x : Nat) :
    ∀ s', alookup x (leaveRoom c' rid' si st).1.locals = some s' →
      ∃ s₀, alookup x st.locals = some s₀ ∧ s₀.peer_id = s'.peer_id ∧ s₀.nick = s'.nick := by
  intro s' h
  rcases leaveRoom_locals_char c' rid' si st with hc | ⟨s, hs, hc⟩
  · rw [hc] at h
    exact ⟨s', h, rfl, rfl⟩
  · rw [hc] at h
    by_cases hx : x = c'
    · subst hx
      rw [alookup_aset_self] at h
      cases h
      exact ⟨s, hs, rfl, rfl⟩
    · rw [alookup_aset_ne hx] at h
      exact ⟨s', h, rfl, rfl⟩

end OpenWire

namespace OpenWire

/-- After a cascade step, the room either is gone or no longer holds the
peer and is non-empty. -/
def roomClean (pid rid : String) (st : RelayState) : Prop :=
  ∀ r, alookup rid st.rooms = some r → pid ∉ r.members ∧ r.members ≠ []

/-- Leaving room `rid` establishes `roomClean` for the leaver's peer id
at `rid`. -/
theorem leaveRoom_clean_self (c : Nat) (rid : String) (si : Bool) (st : RelayState)
    (s : Session) (hl : alookup c st.locals = some s) :
    roomClean s.peer_id rid (leaveRoom c rid si st).1 := by
  intro r' hr'
  unfold leaveRoom at hr'
  rw [hl] at hr'
  cases hr : alookup rid st.rooms with
  | none =>
    rw [hr] at hr'
    rw [hr] at hr'
    cases hr'
  | some r =>
    rw [hr] at hr'
    by_cases he : (delSet s.peer_id r.members).isEmpty = true
    · simp only [he, if_true] at hr'
      rw [alookup_adel_self] at hr'
      cases hr'
    · have hne : delSet s.peer_id r.members ≠ [] := by
        intro hnil
        rw [hnil] at he
        exact he rfl
      by_cases hs : si
      · simp only [he, hs] at hr'
        rw [if_neg (by decide : ¬(false = true))] at hr'
        rw [if_pos trivial] at hr'
        rw [alookup_aset_self] at hr'
        cases hr'
        exact ⟨by simp, hne⟩
      · simp only [he, hs] at hr'
        rw [if_neg (by decide : ¬(false = true))] at hr'
        rw [if_neg (by decide : ¬(false = true))] at hr'
        rw [alookup_aset_self] at hr'
        cases hr'
        exact ⟨by simp, hne⟩

/-- `roomClean` at any room is preserved by any further leave. -/
theorem leaveRoom_clean_mono (c : Nat) (rid rid' : String) (si : Bool) (st : RelayState)
    (pid : String) (h : roomClean pid rid st) :
    roomClean pid rid (leaveRoom c rid' si st).1 := by
  intro r' hr'
  unfold leaveRoom at hr'
  cases hl : alookup c st.locals with
  | none =>
    rw [hl] at hr'
    exact h r' hr'
  | some s =>
    rw [hl] at hr'
    cases hr : alookup rid' st.rooms with
    | none =>
      rw [hr] at hr'
      exact h r' hr'
    | some r =>
      rw [hr] at hr'
      by_cases he : (delSet s.peer_id r.members).isEmpty = true
      · simp only [he, if_true] at hr'
        by_cases hrid : rid = rid'
        · subst hrid
          rw [alookup_adel_self] at hr'
          cases hr'
        · rw [alookup_adel_ne hrid] at hr'
          exact h r' hr'
      · have hne : delSet s.peer_id r.members ≠ [] := by
          intro hnil
          rw [hnil] at he
          exact he rfl
        have hmain : alookup rid
            (aset rid' { r with members := delSet s.peer_id r.members } st.rooms) = some r' →
            pid ∉ r'.members ∧ r'.members ≠ [] := by
          intro hlook
          by_cases hrid : rid = rid'
          · subst hrid
            rw [alookup_aset_self] at hlook
            cases hlook
            obtain ⟨hp, _⟩ := h r hr
            refine ⟨?_, hne⟩
            simp only [Room.mk.injEq]
            rw [mem_delSet]
            exact fun hc => hp hc.1
          · rw [alookup_aset_ne hrid] at hlook
            exact h r' hlook
        by_cases hs : si
        · simp only [he, hs] at hr'
          rw [if_neg (by decide : ¬(false = true))] at hr'
          exact hmain hr'
        · simp only [he, hs] at hr'
          rw [if_neg (by decide : ¬(false = true))] at hr'
          rw [if_neg (by decide : ¬(false = true))] at hr'
          exact hmain hr'

/-- `leaveRoom` keeps the leaver's identity in place. -/
theorem leaveRoom_Q (c : Nat) (rid : String) (si : Bool) (st : RelayState) (pid : String)
    (hQ : ∃ s, alookup c st.locals = some s ∧ s.peer_id = pid) :
    ∃ s, alookup c (leaveRoom c rid si st).1.locals = some s ∧ s.peer_id = pid := by
  obtain ⟨s₀, hs₀, hpid⟩ := hQ
  rcases leaveRoom_locals_char c rid si st with hc | ⟨s, hs, hc⟩
  · rw [hc]
    exact ⟨s₀, hs₀, hpid⟩
  · rw [hc]
    rw [hs] at hs₀
    cases hs₀
    exact ⟨{ s₀ with rooms := delSet rid s₀.rooms }, alookup_aset_self _ _ _, hpid⟩

/-- The room-leaving fold of the `close` listener. -/
def closeFold (c : Nat) (L : List String) (st : RelayState) (acc : List (Nat × Event)) :
    RelayState × List (Nat × Event) :=
  L.foldl (fun (p : RelayState × List (Nat × Event)) rid =>
    let q := leaveRoom c rid true p.1
    (q.1, p.2 ++ q.2)) (st, acc)

theorem closeFold_nil (c : Nat) (st : RelayState) (acc : List (Nat × Event)) :
    closeFold c [] st acc = (st, acc) := rfl

theorem closeFold_cons (c : Nat) (rid : String) (L : List String) (st : RelayState)
    (acc : List (Nat × Event)) :
    closeFold c (rid :: L) st acc =
      closeFold c L (leaveRoom c rid true st).1 (acc ++ (leaveRoom c rid true st).2) := rfl

/-- Everything the cascade fold guarantees: no events, map keys intact,
the leaver's identity intact, old `roomClean` facts kept, and
`roomClean` established for every room in the list. -/
theorem closeFold_spec (c : Nat) (pid : String) :
    ∀ (L : List String) (st : RelayState) (acc : List (Nat × Event)),
      (∃ s, alookup c st.locals = some s ∧ s.peer_id = pid) →
      (closeFold c L st acc).2 = acc ∧
      (closeFold c L st acc).1.reg = st.reg ∧
      (∃ s, alookup c (closeFold c L st acc).1.locals = some s ∧ s.peer_id = pid) ∧
      (∀ rid, roomClean pid rid st → roomClean pid rid (closeFold c L st acc).1) ∧
      (∀ rid ∈ L, roomClean pid rid (closeFold c L st acc).1)
  | [], st, acc, hQ => by
    rw [closeFold_nil]
    exact ⟨rfl, rfl, hQ, fun _ h => h, fun rid h => absurd h (List.not_mem_nil rid)⟩
  | rid :: L, st, acc, hQ => by
    rw [closeFold_cons]
    have hsnd : (leaveRoom c rid true st).2 = [] := leaveRoom_silent_snd c rid st
    obtain ⟨s₀, hs₀, hpid⟩ := hQ
    have hQ1 : ∃ s, alookup c (leaveRoom c rid true st).1.locals = some s ∧ s.peer_id = pid :=
      leaveRoom_Q c rid true st pid ⟨s₀, hs₀, hpid⟩
    obtain ⟨ih1, ih2, ih3, ih4, ih5⟩ :=
      closeFold_spec c pid L (leaveRoom c rid true st).1 (acc ++ (leaveRoom c rid true st).2) hQ1
    refine ⟨?_, ?_, ih3, ?_, ?_⟩
    · rw [ih1, hsnd, List.append_nil]
    · rw [ih2, leaveRoom_reg]
    · intro rid' hcl
      exact ih4 rid' (leaveRoom_clean_mono c rid' rid true st pid hcl)
    · intro rid' hmem
      rcases List.mem_cons.1 hmem with rfl | hmem
      · have hself : roomClean pid rid' (leaveRoom c rid' true st).1 := by
          have := leaveRoom_clean_self c rid' true st s₀ hs₀
          rwa [hpid] at this
        exact ih4 rid' hself
      · exact ih5 rid' hmem

end OpenWire

namespace OpenWire

/-- A room id with no rooms-map entry does not appear in `roomList()`. -/
theorem not_mem_roomListOf {st : RelayState} {rid : String}
    (h : alookup rid st.rooms = none) : ∀ nm cnt, (rid, nm, cnt) ∉ roomListOf st := by
  intro nm cnt hmem
  unfold roomListOf at hmem
  rw [List.mem_map] at hmem
  obtain ⟨p, hp, heq⟩ := hmem
  have hfst : p.1 = rid := congrArg Prod.fst heq
  have : rid ∈ st.rooms.map Prod.fst := by
    rw [List.mem_map]
    exact ⟨p, hp, hfst⟩
  exact alookup_eq_none_iff.1 h this

theorem map_eq_filterMap_some (l : List Nat) (ev : Event) :
    l.map (fun x => (x, ev)) = l.filterMap (fun x => some (x, ev)) := by
  induction l with
  | nil => rfl
  | cons a t ih => simp [List.filterMap_cons, ih]

theorem count_map_keyed (l : List Nat) (hnd : l.Nodup) (ev : Event) (c' : Nat)
    (hc' : c' ∈ l) :
    List.count (c', ev) (l.map (fun x => (x, ev))) = 1 := by
  rw [map_eq_filterMap_some]
  exact count_filterMap_keyed Prod.fst l _ (fun x y h => by cases h; rfl) hnd c' _ rfl hc'

/-- **C5**: processing a disconnect of a connection with session `s`
removes the connection from the map, leaves every room in `s.rooms`
either deleted or without `s.peer_id` and non-empty (so a room emptied
by the cascade exists no longer), keeps deleted rooms out of
`room_list`, and emits exactly a single `peer_left` to every remaining
mapped connection and nothing else. -/
theorem C5_disconnect_cascade (st : RelayState) (c : Nat) (s : Session)
    (h1 : alookup c st.locals = some s) (hnd : st.reg.Nodup) :
    (stepDO (.close c) st).1.reg = st.reg.filter (fun c' => c' ≠ c) ∧
    (∀ rid ∈ s.rooms, ∀ r, alookup rid (stepDO (.close c) st).1.rooms = some r →
      s.peer_id ∉ r.members ∧ r.members ≠ []) ∧
    (∀ rid ∈ s.rooms, alookup rid (stepDO (.close c) st).1.rooms = none →
      ∀ nm cnt, (rid, nm, cnt) ∉ roomListOf (stepDO (.close c) st).1) ∧
    (stepDO (.close c) st).2 =
      (stepDO (.close c) st).1.reg.map (fun c' => (c', Event.peer_left s.peer_id s.nick)) ∧
    (∀ c' ∈ (stepDO (.close c) st).1.reg,
      List.count (c', Event.peer_left s.peer_id s.nick) (stepDO (.close c) st).2 = 1) := by
  have hrun : stepDO (.close c) st =
      ((⟨(closeFold c s.rooms st []).1.locals,
         (closeFold c s.rooms st []).1.reg.filter (fun c' => c' ≠ c),
         (closeFold c s.rooms st []).1.rooms⟩ : RelayState),
       (closeFold c s.rooms st []).2 ++
         broadcastAll
           (⟨(closeFold c s.rooms st []).1.locals,
             (closeFold c s.rooms st []).1.reg.filter (fun c' => c' ≠ c),
             (closeFold c s.rooms st []).1.rooms⟩ : RelayState)
           (Event.peer_left s.peer_id s.nick) none) := by
    show handleClose c st = _
    unfold handleClose closeFold
    rw [h1]
  obtain ⟨hf1, hf2, hf3, hf4, hf5⟩ := closeFold_spec c s.peer_id s.rooms st [] ⟨s, h1, rfl⟩
  have hreg' : (stepDO (.close c) st).1.reg = st.reg.filter (fun c' => c' ≠ c) := by
    rw [hrun]
    simp only
    rw [hf2]
  refine ⟨hreg', ?_, ?_, ?_, ?_⟩
  · intro rid hmem r hr
    have hcl := hf5 rid hmem
    apply hcl
    rw [hrun] at hr
    exact hr
  · intro rid hmem hnone nm cnt
    exact not_mem_roomListOf hnone nm cnt
  · rw [hrun]
    simp only
    rw [hf1, List.nil_append, broadcastAll_none]
  · intro c' hc'
    have hout : (stepDO (.close c) st).2 =
        (stepDO (.close c) st).1.reg.map
          (fun c'' => (c'', Event.peer_left s.peer_id s.nick)) := by
      rw [hrun]
      simp only
      rw [hf1, List.nil_append, broadcastAll_none]
    rw [hout]
    apply count_map_keyed
    · rw [hreg']
      exact List.Nodup.filter _ hnd
    · exact hc'

/-- Fixture for the C5 witness: closing conn 2 removes `b` from `r1`
(which keeps member `a`) and empties and deletes `r2`. -/
def stC5 : RelayState :=
  ⟨[(1, ⟨"a", "Ann", ["r1"]⟩), (2, ⟨"b", "Bo", ["r1", "r2"]⟩)], [1, 2],
   [("r1", ⟨"R", ["a", "b"]⟩), ("r2", ⟨"S", ["b"]⟩)]⟩

/-- Witness for `C5_disconnect_cascade`: the remaining peer receives
exactly one `peer_left`. -/
theorem C5_witness :
    List.count (1, Event.peer_left "b" "Bo") (stepDO (.close 2) stC5).2 = 1 :=
  (C5_disconnect_cascade stC5 2 ⟨"b", "Bo", ["r1", "r2"]⟩ (by decide)
    (by decide)).2.2.2.2 1 (by decide)

end OpenWire

namespace OpenWire

/-! ## C3 — bidirectional registry/directory consistency

The invariant `room_id ∈ memberRooms ⇔ peer_id ∈ Room(room_id).members`
is *not* preserved by arbitrary request sequences: a connection that
re-joins supplying the same `peer_id` gets a fresh session with empty
`memberRooms` while its old memberships survive in the room directory
(see C10).  It does hold along every trace in which each join is
assigned a globally fresh peer id (never used by any session created
before, present in no room) and generated room ids are fresh — which is
what `crypto.randomUUID()` is meant to guarantee.  We prove the
invariant for all states reachable under those freshness guards, and
refute the unguarded claim with the re-join trace. -/

/-- `pid` is recorded as a member of room `rid` in the directory. -/
def pidInRoom (pid rid : String) (rooms : List (String × Room)) : Prop :=
  match alookup rid rooms with
  | some r => pid ∈ r.members
  | none => False

instance (pid rid : String) (rooms : List (String × Room)) :
    Decidable (pidInRoom pid rid rooms) := by
  unfold pidInRoom
  cases alookup rid rooms with
  | none => exact inferInstance
  | some r => exact inferInstance

theorem pidInRoom_iff {pid rid : String} {rooms : List (String × Room)} :
    pidInRoom pid rid rooms ↔ ∃ r, alookup rid rooms = some r ∧ pid ∈ r.members := by
  unfold pidInRoom
  cases h : alookup rid rooms with
  | none => simp
  | some r => simp

theorem mem_map_aset {κ α β : Type} [DecidableEq κ] {f : κ × α → β} {x : β} {k : κ} {v : α}
    {l : List (κ × α)} (h : x ∈ (aset k v l).map f) : x = f (k, v) ∨ x ∈ l.map f := by
  induction l with
  | nil => simpa [aset] using h
  | cons e t ih =>
    obtain ⟨k', v'⟩ := e
    by_cases hk : k' = k
    · subst hk
      have ha : aset k' v ((k', v') :: t) = (k', v) :: t := by simp [aset]
      rw [ha, List.map_cons] at h
      rcases List.mem_cons.1 h with h | h
      · exact Or.inl h
      · exact Or.inr (List.mem_cons_of_mem _ h)
    · have ha : aset k v ((k', v') :: t) = (k', v') :: aset k v t := by simp [aset, hk]
      rw [ha, List.map_cons] at h
      rcases List.mem_cons.1 h with h | h
      · exact Or.inr (by simp [h])
      · rcases ih h with h | h
        · exact Or.inl h
        · exact Or.inr (List.mem_cons_of_mem _ h)

/-- Entries with different keys carry different peer ids when the peer-id
column is nodup. -/
theorem pids_distinct :
    ∀ {locals : List (Nat × Session)},
      (locals.map (fun p => p.2.peer_id)).Nodup →
      ∀ {p q : Nat × Session}, p ∈ locals → q ∈ locals → p ≠ q →
        p.2.peer_id ≠ q.2.peer_id
  | [], _, p, q, hp, _, _ => absurd hp (List.not_mem_nil p)
  | e :: t, hnd, p, q, hp, hq, hne => by
    rw [List.map_cons, List.nodup_cons] at hnd
    rcases List.mem_cons.1 hp with rfl | hp'
    · rcases List.mem_cons.1 hq with rfl | hq'
      · exact absurd rfl hne
      · intro hh
        apply hnd.1
        rw [hh]
        exact List.mem_map_of_mem (fun p => p.2.peer_id) hq'
    · rcases List.mem_cons.1 hq with rfl | hq'
      · intro hh
        apply hnd.1
        rw [← hh]
        exact List.mem_map_of_mem (fun p => p.2.peer_id) hp'
      · exact pids_distinct hnd.2 hp' hq' hne

/-- Replacing (or adding) a session with a peer id no existing session
carries keeps the peer-id column nodup. -/
theorem pids_nodup_aset {c : Nat} {snew : Session} :
    ∀ {locals : List (Nat × Session)},
      (locals.map (fun p => p.2.peer_id)).Nodup →
      (∀ p ∈ locals, p.2.peer_id ≠ snew.peer_id) →
      ((aset c snew locals).map (fun p => p.2.peer_id)).Nodup
  | [], _, _ => by simp [aset]
  | (k, v) :: t, hnd, hfresh => by
    rw [List.map_cons, List.nodup_cons] at hnd
    by_cases hk : k = c
    · subst hk
      have ha : aset k snew ((k, v) :: t) = (k, snew) :: t := by simp [aset]
      rw [ha, List.map_cons, List.nodup_cons]
      refine ⟨?_, hnd.2⟩
      intro hmem
      rw [List.mem_map] at hmem
      obtain ⟨p, hp, hpe⟩ := hmem
      exact hfresh p (List.mem_cons_of_mem _ hp) hpe
    · have ha : aset c snew ((k, v) :: t) = (k, v) :: aset c snew t := by simp [aset, hk]
      rw [ha, List.map_cons, List.nodup_cons]
      refine ⟨?_, pids_nodup_aset hnd.2
        (fun p hp => hfresh p (List.mem_cons_of_mem _ hp))⟩
      intro hmem
      rcases mem_map_aset hmem with h | h
      · exact hfresh (k, v) (List.mem_cons_self _ _) h
      · exact hnd.1 h

/-- Replacing a session by one with the same peer id leaves the peer-id
column unchanged. -/
theorem map_pid_aset_same {c : Nat} {s s' : Session} (hpid : s'.peer_id = s.peer_id) :
    ∀ {locals : List (Nat × Session)}, alookup c locals = some s →
      (aset c s' locals).map (fun p => p.2.peer_id) =
        locals.map (fun p => p.2.peer_id)
  | [], h => by simp [alookup] at h
  | (k, v) :: t, h => by
    by_cases hk : k = c
    · subst hk
      rw [alookup_cons, if_pos rfl] at h
      cases h
      simp [aset, hpid]
    · rw [alookup_cons, if_neg hk] at h
      simp only [aset, if_neg hk, List.map_cons]
      rw [map_pid_aset_same hpid h]

theorem delSet_eq_nil_forall {x : String} {l : List String} (h : delSet x l = []) :
    ∀ y ∈ l, y = x := by
  intro y hy
  by_contra hne
  have : y ∈ delSet x l := mem_delSet x y l |>.2 ⟨hy, hne⟩
  rw [h] at this
  exact absurd this (List.not_mem_nil y)

/-- `adel` keeps the key column nodup. -/
theorem adel_keys_nodup {κ α : Type} [DecidableEq κ] {k : κ} {l : List (κ × α)}
    (h : (l.map Prod.fst).Nodup) : ((adel k l).map Prod.fst).Nodup := by
  have hsub : List.Sublist ((adel k l).map Prod.fst) (l.map Prod.fst) :=
    List.Sublist.map Prod.fst (List.filter_sublist l)
  exact List.Nodup.sublist hsub h

end OpenWire

namespace OpenWire

/-- The bidirectional registry/directory consistency invariant, plus the
structural facts (unique map keys, unique peer ids over all sessions —
live and errored-off) needed to preserve it. -/
def Inv (st : RelayState) : Prop :=
  (∀ p ∈ st.locals, ∀ rid, rid ∈ p.2.rooms ↔ pidInRoom p.2.peer_id rid st.rooms) ∧
  (st.locals.map Prod.fst).Nodup ∧
  (st.rooms.map Prod.fst).Nodup ∧
  (st.locals.map (fun p => p.2.peer_id)).Nodup

/-- Freshness of an assigned peer id: it is carried by no session ever
created on any connection (the `locals` table also keeps sessions whose
connection errored off the map) and sits in no room's member set. -/
def FreshPid (pid : String) (st : RelayState) : Prop :=
  (∀ p ∈ st.locals, p.2.peer_id ≠ pid) ∧ (∀ q ∈ st.rooms, pid ∉ q.2.members)

/-- The identifier-freshness guard on a trace step: joins are assigned
globally fresh peer ids and `room_create` draws an unused room id —
the guarantees `crypto.randomUUID()` is trusted to provide. -/
def GoodAction (st : RelayState) : Action → Prop
  | .msg _ uuid (.join pid0 _) => FreshPid (orFalsy pid0 (strTake uuid 16)) st
  | .msg _ uuid (.room_create _) => alookup ("room-" ++ strTake uuid 16) st.rooms = none
  | _ => True

/-- Join step, state component. -/
theorem stepDO_join_fst (c : Nat) (uuid : String) (pid0 nick0 : Option String)
    (st : RelayState) :
    (stepDO (.msg c uuid (.join pid0 nick0)) st).1 =
      ⟨aset c ⟨orFalsy pid0 (strTake uuid 16),
               uniqueNick (strTake (orFalsy nick0 "Anonymous") 24)
                 ((sessionsOf st).map Session.nick), []⟩ st.locals,
       if c ∈ st.reg then st.reg else st.reg ++ [c],
       st.rooms⟩ := rfl

/-- `room_create` step, state component. -/
theorem stepDO_create_fst (c : Nat) (uuid : String) (name0 : Option String)
    (st : RelayState) (s : Session) (hl : alookup c st.locals = some s) :
    (stepDO (.msg c uuid (.room_create name0)) st).1 =
      ⟨aset c { s with rooms := insSet ("room-" ++ strTake uuid 16) s.rooms } st.locals,
       st.reg,
       aset ("room-" ++ strTake uuid 16)
         ⟨strTake (orFalsy name0 "Untitled") 50, [s.peer_id]⟩ st.rooms⟩ := by
  simp [stepDO, step, stepMsg, hl, shapeDO]

/-- `room_join` step on an existing room, state component. -/
theorem stepDO_roomjoin_fst (c : Nat) (uuid : String) (rid : String)
    (st : RelayState) (s : Session) (r : Room)
    (hl : alookup c st.locals = some s) (hr : alookup rid st.rooms = some r) :
    (stepDO (.msg c uuid (.room_join rid)) st).1 =
      ⟨aset c { s with rooms := insSet rid s.rooms } st.locals,
       st.reg,
       aset rid { r with members := insSet s.peer_id r.members } st.rooms⟩ := by
  simp [stepDO, step, stepMsg, hl, hr, shapeDO]

/-- A join with a fresh peer id preserves the invariant. -/
theorem inv_join (st : RelayState) (c : Nat) (pid nick : String) (reg' : List Nat)
    (hInv : Inv st) (hfresh : FreshPid pid st) :
    Inv ⟨aset c ⟨pid, nick, []⟩ st.locals, reg', st.rooms⟩ := by
  obtain ⟨h1, h2, h3, h4⟩ := hInv
  refine ⟨?_, aset_keys_nodup h2, h3, pids_nodup_aset h4 hfresh.1⟩
  intro p hp rid
  rcases (mem_aset h2).1 hp with rfl | ⟨hpold, _⟩
  · constructor
    · intro h
      exact absurd h (List.not_mem_nil rid)
    · intro h
      rw [pidInRoom_iff] at h
      obtain ⟨r, har, hmem⟩ := h
      exact absurd hmem (hfresh.2 (rid, r) (alookup_mem har))
  · exact h1 p hpold rid

/-- `room_create` with a fresh room id preserves the invariant. -/
theorem inv_create (st : RelayState) (c : Nat) (s : Session) (rid nm : String)
    (reg' : List Nat) (hl : alookup c st.locals = some s)
    (hfree : alookup rid st.rooms = none) (hInv : Inv st) :
    Inv ⟨aset c { s with rooms := insSet rid s.rooms } st.locals, reg',
         aset rid ⟨nm, [s.peer_id]⟩ st.rooms⟩ := by
  obtain ⟨h1, h2, h3, h4⟩ := hInv
  refine ⟨?_, aset_keys_nodup h2, aset_keys_nodup h3, ?_⟩
  · intro p hp rid'
    rcases (mem_aset h2).1 hp with rfl | ⟨hpold, hkey⟩
    · by_cases hrid : rid' = rid
      · subst hrid
        apply iff_of_true
        · simp
        · rw [pidInRoom_iff]
          exact ⟨⟨nm, [s.peer_id]⟩, alookup_aset_self _ _ _, by simp⟩
      · have hlhs : rid' ∈ insSet rid s.rooms ↔ rid' ∈ s.rooms := by
          rw [mem_insSet]
          simp [hrid]
        rw [hlhs]
        rw [pidInRoom_iff]
        conv_rhs =>
          rw [show (∃ r, alookup rid'
              (aset rid ⟨nm, [s.peer_id]⟩ st.rooms) = some r ∧
              Session.peer_id s ∈ r.members) ↔ pidInRoom s.peer_id rid' st.rooms from by
            rw [pidInRoom_iff, alookup_aset_ne hrid]]
        exact h1 (c, s) (alookup_mem hl) rid'
    · by_cases hrid : rid' = rid
      · apply iff_of_false
        · intro h
          have hpir := (h1 p hpold rid').1 h
          rw [pidInRoom_iff] at hpir
          obtain ⟨r, har, _⟩ := hpir
          rw [hrid, hfree] at har
          cases har
        · intro h
          rw [pidInRoom_iff] at h
          obtain ⟨r, har, hmem⟩ := h
          rw [hrid, alookup_aset_self] at har
          cases har
          rw [List.mem_singleton] at hmem
          exact pids_distinct h4 hpold (alookup_mem hl)
            (fun hh => hkey (congrArg Prod.fst hh)) hmem
      · rw [pidInRoom_iff, alookup_aset_ne hrid, ← pidInRoom_iff]
        exact h1 p hpold rid'
  · rw [@map_pid_aset_same c s { s with rooms := insSet rid s.rooms } rfl st.locals hl]
    exact h4

end OpenWire

namespace OpenWire

/-- `room_join` on an existing room preserves the invariant. -/
theorem inv_roomjoin (st : RelayState) (c : Nat) (s : Session) (rid : String) (r : Room)
    (reg' : List Nat) (hl : alookup c st.locals = some s)
    (hr : alookup rid st.rooms = some r) (hInv : Inv st) :
    Inv ⟨aset c { s with rooms := insSet rid s.rooms } st.locals, reg',
         aset rid { r with members := insSet s.peer_id r.members } st.rooms⟩ := by
  obtain ⟨h1, h2, h3, h4⟩ := hInv
  refine ⟨?_, aset_keys_nodup h2, aset_keys_nodup h3, ?_⟩
  · intro p hp rid'
    rcases (mem_aset h2).1 hp with rfl | ⟨hpold, hkey⟩
    · by_cases hrid : rid' = rid
      · apply iff_of_true
        · exact (mem_insSet _ _ _).2 (Or.inl hrid)
        · rw [pidInRoom_iff]
          exact ⟨{ r with members := insSet s.peer_id r.members },
            by rw [hrid]; exact alookup_aset_self _ _ _,
            (mem_insSet _ _ _).2 (Or.inl rfl)⟩
      · have hlhs : rid' ∈ insSet rid s.rooms ↔ rid' ∈ s.rooms := by
          rw [mem_insSet]
          simp [hrid]
        rw [hlhs, pidInRoom_iff, alookup_aset_ne hrid, ← pidInRoom_iff]
        exact h1 (c, s) (alookup_mem hl) rid'
    · by_cases hrid : rid' = rid
      · have hne : p.2.peer_id ≠ s.peer_id :=
          pids_distinct h4 hpold (alookup_mem hl) (fun hh => hkey (congrArg Prod.fst hh))
        have hlhs : (rid' ∈ p.2.rooms) ↔ p.2.peer_id ∈ r.members := by
          rw [h1 p hpold rid', pidInRoom_iff]
          constructor
          · rintro ⟨r₀, har, hm⟩
            rw [hrid, hr] at har
            cases har
            exact hm
          · intro hm
            exact ⟨r, by rw [hrid]; exact hr, hm⟩
        have hrhs : pidInRoom p.2.peer_id rid'
            (aset rid { r with members := insSet s.peer_id r.members } st.rooms) ↔
            p.2.peer_id ∈ r.members := by
          rw [pidInRoom_iff]
          constructor
          · rintro ⟨r₀, har, hm⟩
            rw [hrid, alookup_aset_self] at har
            cases har
            rcases (mem_insSet _ _ _).1 hm with h | h
            · exact absurd h hne
            · exact h
          · intro hm
            exact ⟨{ r with members := insSet s.peer_id r.members },
              by rw [hrid]; exact alookup_aset_self _ _ _,
              (mem_insSet _ _ _).2 (Or.inr hm)⟩
        rw [hlhs, hrhs]
      · rw [pidInRoom_iff, alookup_aset_ne hrid, ← pidInRoom_iff]
        exact h1 p hpold rid'
  · rw [@map_pid_aset_same c s { s with rooms := insSet rid s.rooms } rfl st.locals hl]
    exact h4

/-- A leave that empties the room (room deleted) preserves the invariant. -/
theorem inv_leave_empty (st : RelayState) (c : Nat) (s : Session) (rid : String) (r : Room)
    (reg' : List Nat) (hl : alookup c st.locals = some s)
    (hr : alookup rid st.rooms = some r) (hempty : delSet s.peer_id r.members = [])
    (hInv : Inv st) :
    Inv ⟨aset c { s with rooms := delSet rid s.rooms } st.locals, reg',
         adel rid st.rooms⟩ := by
  obtain ⟨h1, h2, h3, h4⟩ := hInv
  refine ⟨?_, aset_keys_nodup h2, adel_keys_nodup h3, ?_⟩
  · intro p hp rid'
    rcases (mem_aset h2).1 hp with rfl | ⟨hpold, hkey⟩
    · by_cases hrid : rid' = rid
      · apply iff_of_false
        · intro h
          exact (((mem_delSet _ _ _).1 h).2) hrid
        · intro h
          rw [pidInRoom_iff] at h
          obtain ⟨r₀, har, _⟩ := h
          rw [hrid, alookup_adel_self] at har
          cases har
      · have hlhs : rid' ∈ delSet rid s.rooms ↔ rid' ∈ s.rooms := by
          rw [mem_delSet]
          simp [hrid]
        rw [hlhs, pidInRoom_iff, alookup_adel_ne hrid, ← pidInRoom_iff]
        exact h1 (c, s) (alookup_mem hl) rid'
    · by_cases hrid : rid' = rid
      · have hne : p.2.peer_id ≠ s.peer_id :=
          pids_distinct h4 hpold (alookup_mem hl) (fun hh => hkey (congrArg Prod.fst hh))
        apply iff_of_false
        · intro h
          have hpir := (h1 p hpold rid').1 h
          rw [pidInRoom_iff] at hpir
          obtain ⟨r₀, har, hm⟩ := hpir
          rw [hrid, hr] at har
          cases har
          exact hne (delSet_eq_nil_forall hempty _ hm)
        · intro h
          rw [pidInRoom_iff] at h
          obtain ⟨r₀, har, _⟩ := h
          rw [hrid, alookup_adel_self] at har
          cases har
      · rw [pidInRoom_iff, alookup_adel_ne hrid, ← pidInRoom_iff]
        exact h1 p hpold rid'
  · rw [@map_pid_aset_same c s { s with rooms := delSet rid s.rooms } rfl st.locals hl]
    exact h4

/-- A leave that keeps the room non-empty preserves the invariant. -/
theorem inv_leave_nonempty (st : RelayState) (c : Nat) (s : Session) (rid : String)
    (r : Room) (reg' : List Nat) (hl : alookup c st.locals = some s)
    (hr : alookup rid st.rooms = some r) (hInv : Inv st) :
    Inv ⟨aset c { s with rooms := delSet rid s.rooms } st.locals, reg',
         aset rid { r with members := delSet s.peer_id r.members } st.rooms⟩ := by
  obtain ⟨h1, h2, h3, h4⟩ := hInv
  refine ⟨?_, aset_keys_nodup h2, aset_keys_nodup h3, ?_⟩
  · intro p hp rid'
    rcases (mem_aset h2).1 hp with rfl | ⟨hpold, hkey⟩
    · by_cases hrid : rid' = rid
      · apply iff_of_false
        · intro h
          exact (((mem_delSet _ _ _).1 h).2) hrid
        · intro h
          rw [pidInRoom_iff] at h
          obtain ⟨r₀, har, hm⟩ := h
          rw [hrid, alookup_aset_self] at har
          cases har
          exact ((mem_delSet _ _ _).1 hm).2 rfl
      · have hlhs : rid' ∈ delSet rid s.rooms ↔ rid' ∈ s.rooms := by
          rw [mem_delSet]
          simp [hrid]
        rw [hlhs, pidInRoom_iff, alookup_aset_ne hrid, ← pidInRoom_iff]
        exact h1 (c, s) (alookup_mem hl) rid'
    · by_cases hrid : rid' = rid
      · have hne : p.2.peer_id ≠ s.peer_id :=
          pids_distinct h4 hpold (alookup_mem hl) (fun hh => hkey (congrArg Prod.fst hh))
        have hlhs : (rid' ∈ p.2.rooms) ↔ p.2.peer_id ∈ r.members := by
          rw [h1 p hpold rid', pidInRoom_iff]
          constructor
          · rintro ⟨r₀, har, hm⟩
            rw [hrid, hr] at har
            cases har
            exact hm
          · intro hm
            exact ⟨r, by rw [hrid]; exact hr, hm⟩
        have hrhs : pidInRoom p.2.peer_id rid'
            (aset rid { r with members := delSet s.peer_id r.members } st.rooms) ↔
            p.2.peer_id ∈ r.members := by
          rw [pidInRoom_iff]
          constructor
          · rintro ⟨r₀, har, hm⟩
            rw [hrid, alookup_aset_self] at har
            cases har
            exact ((mem_delSet _ _ _).1 hm).1
          · intro hm
            exact ⟨{ r with members := delSet s.peer_id r.members },
              by rw [hrid]; exact alookup_aset_self _ _ _,
              (mem_delSet _ _ _).2 ⟨hm, hne⟩⟩
        rw [hlhs, hrhs]
      · rw [pidInRoom_iff, alookup_aset_ne hrid, ← pidInRoom_iff]
        exact h1 p hpold rid'
  · rw [@map_pid_aset_same c s { s with rooms := delSet rid s.rooms } rfl st.locals hl]
    exact h4

end OpenWire

namespace OpenWire

/-- State characterisation of `leaveRoom`. -/
theorem leaveRoom_fst_char (c : Nat) (rid : String) (si : Bool) (st : RelayState) :
    (leaveRoom c rid si st).1 = st ∨
    ∃ s r, alookup c st.locals = some s ∧ alookup rid st.rooms = some r ∧
      ((delSet s.peer_id r.members = [] ∧
        (leaveRoom c rid si st).1 =
          ⟨aset c { s with rooms := delSet rid s.rooms } st.locals, st.reg,
           adel rid st.rooms⟩) ∨
       (delSet s.peer_id r.members ≠ [] ∧
        (leaveRoom c rid si st).1 =
          ⟨aset c { s with rooms := delSet rid s.rooms } st.locals, st.reg,
           aset rid { r with members := delSet s.peer_id r.members } st.rooms⟩)) := by
  unfold leaveRoom
  cases hl : alookup c st.locals with
  | none => exact Or.inl rfl
  | some s =>
    cases hr : alookup rid st.rooms with
    | none => exact Or.inl rfl
    | some r =>
      refine Or.inr ⟨s, r, rfl, rfl, ?_⟩
      by_cases he : (delSet s.peer_id r.members).isEmpty = true
      · refine Or.inl ⟨List.isEmpty_iff.1 he, ?_⟩
        simp [he]
      · refine Or.inr ⟨fun hnil => he (by rw [hnil]; rfl), ?_⟩
        by_cases hs : si <;> simp [he, hs]

/-- Any `leaveRoom` call preserves the invariant. -/
theorem inv_leaveRoom (c : Nat) (rid : String) (si : Bool) (st : RelayState)
    (hInv : Inv st) : Inv (leaveRoom c rid si st).1 := by
  rcases leaveRoom_fst_char c rid si st with heq | ⟨s, r, hl, hr, hca⟩
  · rw [heq]
    exact hInv
  · rcases hca with ⟨hempty, heq⟩ | ⟨hne, heq⟩
    · rw [heq]
      exact inv_leave_empty st c s rid r st.reg hl hr hempty hInv
    · rw [heq]
      exact inv_leave_nonempty st c s rid r st.reg hl hr hInv

theorem inv_closeFold (c : Nat) :
    ∀ (L : List String) (st : RelayState) (acc : List (Nat × Event)),
      Inv st → Inv (closeFold c L st acc).1
  | [], st, acc, hInv => by
    rw [closeFold_nil]
    exact hInv
  | rid :: L, st, acc, hInv => by
    rw [closeFold_cons]
    exact inv_closeFold c L _ _ (inv_leaveRoom c rid true st hInv)

/-- Every guarded step preserves the invariant. -/
theorem inv_step (a : Action) (st : RelayState) (hInv : Inv st) (hg : GoodAction st a) :
    Inv (stepDO a st).1 := by
  cases a with
  | msg c uuid req =>
    cases req with
    | join pid0 nick0 =>
      rw [stepDO_join_fst]
      exact inv_join st c _ _ _ hInv hg
    | message d =>
      have hfix : (stepDO (.msg c uuid (.message d)) st).1 = st := by
        cases hl : alookup c st.locals <;> simp [stepDO, step, stepMsg, hl]
      rw [hfix]
      exact hInv
    | room_create name0 =>
      cases hl : alookup c st.locals with
      | none =>
        have hfix : (stepDO (.msg c uuid (.room_create name0)) st).1 = st := by
          simp [stepDO, step, stepMsg, hl]
        rw [hfix]
        exact hInv
      | some s =>
        rw [stepDO_create_fst c uuid name0 st s hl]
        exact inv_create st c s _ _ st.reg hl hg hInv
    | room_join rid =>
      cases hl : alookup c st.locals with
      | none =>
        have hfix : (stepDO (.msg c uuid (.room_join rid)) st).1 = st := by
          simp [stepDO, step, stepMsg, hl]
        rw [hfix]
        exact hInv
      | some s =>
        cases hr : alookup rid st.rooms with
        | none =>
          have hfix : (stepDO (.msg c uuid (.room_join rid)) st).1 = st := by
            simp [stepDO, step, stepMsg, hl, hr]
          rw [hfix]
          exact hInv
        | some r =>
          rw [stepDO_roomjoin_fst c uuid rid st s r hl hr]
          exact inv_roomjoin st c s rid r st.reg hl hr hInv
    | room_invite rid target =>
      have hfix : (stepDO (.msg c uuid (.room_invite rid target)) st).1 = st := by
        cases hl : alookup c st.locals with
        | none => simp [stepDO, step, stepMsg, hl]
        | some s =>
          cases hr : alookup rid st.rooms with
          | none => simp [stepDO, step, stepMsg, hl, hr]
          | some r =>
            cases hf : findConn st target <;> simp [stepDO, step, stepMsg, hl, hr, hf]
      rw [hfix]
      exact hInv
    | room_message rid d =>
      have hfix : (stepDO (.msg c uuid (.room_message rid d)) st).1 = st := by
        cases hl : alookup c st.locals <;> simp [stepDO, step, stepMsg, hl]
      rw [hfix]
      exact hInv
    | room_leave rid =>
      cases hl : alookup c st.locals with
      | none =>
        have hfix : (stepDO (.msg c uuid (.room_leave rid)) st).1 = st := by
          simp [stepDO, step, stepMsg, hl]
        rw [hfix]
        exact hInv
      | some s =>
        have hfix : (stepDO (.msg c uuid (.room_leave rid)) st).1 =
            (leaveRoom c rid false st).1 := by
          simp [stepDO, step, stepMsg, hl]
        rw [hfix]
        exact inv_leaveRoom c rid false st hInv
    | room_list =>
      exact hInv
    | unknown =>
      exact hInv
  | close c =>
    cases hl : alookup c st.locals with
    | none =>
      have hfix : (stepDO (.close c) st).1 = st := by
        show (handleClose c st).1 = st
        unfold handleClose
        rw [hl]
      rw [hfix]
      exact hInv
    | some s =>
      have hfix : (stepDO (.close c) st).1 =
          ⟨(closeFold c s.rooms st []).1.locals,
           (closeFold c s.rooms st []).1.reg.filter (fun c' => c' ≠ c),
           (closeFold c s.rooms st []).1.rooms⟩ := by
        show (handleClose c st).1 = _
        unfold handleClose closeFold
        rw [hl]
      rw [hfix]
      have hF := inv_closeFold c s.rooms st [] hInv
      exact ⟨hF.1, hF.2.1, hF.2.2.1, hF.2.2.2⟩
  | error c =>
    have hfix : (stepDO (.error c) st).1 =
        ⟨st.locals, st.reg.filter (fun c' => c' ≠ c), st.rooms⟩ := by
      simp [stepDO, step, shapeDO]
    rw [hfix]
    exact ⟨hInv.1, hInv.2.1, hInv.2.2.1, hInv.2.2.2⟩

end OpenWire

namespace OpenWire

instance (pid : String) (st : RelayState) : Decidable (FreshPid pid st) := by
  unfold FreshPid
  exact inferInstance

instance (st : RelayState) (a : Action) : Decidable (GoodAction st a) :=
  match a with
  | .msg _ uuid (.join pid0 _) =>
    (inferInstance : Decidable (FreshPid (orFalsy pid0 (strTake uuid 16)) st))
  | .msg _ uuid (.room_create _) =>
    (inferInstance : Decidable (alookup ("room-" ++ strTake uuid 16) st.rooms = none))
  | .msg _ _ (.message _) => (inferInstance : Decidable True)
  | .msg _ _ (.room_join _) => (inferInstance : Decidable True)
  | .msg _ _ (.room_invite _ _) => (inferInstance : Decidable True)
  | .msg _ _ (.room_message _ _) => (inferInstance : Decidable True)
  | .msg _ _ (.room_leave _) => (inferInstance : Decidable True)
  | .msg _ _ .room_list => (inferInstance : Decidable True)
  | .msg _ _ .unknown => (inferInstance : Decidable True)
  | .close _ => (inferInstance : Decidable True)
  | .error _ => (inferInstance : Decidable True)

/-- States of the Durable Object relay reachable from the empty state by
requests, closures and errors, under the identifier-freshness guard. -/
inductive ReachDO : RelayState → Prop where
  | init : ReachDO initState
  | step (st : RelayState) (a : Action) (h : ReachDO st) (hg : GoodAction st a) :
      ReachDO (stepDO a st).1

theorem inv_init : Inv initState :=
  ⟨fun p hp => absurd hp (List.not_mem_nil p), List.nodup_nil, List.nodup_nil,
   List.nodup_nil⟩

theorem inv_of_reach {st : RelayState} (h : ReachDO st) : Inv st := by
  induction h with
  | init => exact inv_init
  | step st a _ hg ih => exact inv_step a st ih hg

/-- **C3** (amended): in every state reachable from the empty state by
requests, closures and errors in which each join is assigned a globally
fresh peer id and each `room_create` a fresh room id, bidirectional
consistency holds: for every mapped (live) session `s` at connection
`c`, a room id is in `s`'s `memberRooms` iff `s.peer_id` is in that
room's member set. -/
theorem C3_amended_consistency (st : RelayState) (h : ReachDO st) :
    ∀ c s, c ∈ st.reg → alookup c st.locals = some s →
      ∀ rid, rid ∈ s.rooms ↔ pidInRoom s.peer_id rid st.rooms := by
  intro c s _ hal rid
  exact (inv_of_reach h).1 (c, s) (alookup_mem hal) rid

/-- The re-join trace refuting unguarded bidirectional consistency:
conn 1 joins with caller-supplied peer id `a`, creates a room, then
joins again with the same peer id. -/
def trC3 : List Action :=
  [.msg 1 "aaaaaaaaaaaaaaaa" (.join (some "a") (some "Ann")),
   .msg 1 "u2u2u2u2u2u2u2u2" (.room_create (some "Club")),
   .msg 1 "cccccccccccccccc" (.join (some "a") (some "Bo"))]

/-- **C3** (counterexample): after the re-join trace the live session of
connection 1 has peer id `a` and empty `memberRooms`, while `a` is still
a member of the surviving room — the biconditional fails in a state
reachable by ordinary requests. -/
theorem C3_counterexample_rejoin :
    1 ∈ (runDO trC3 initState).reg ∧
    alookup 1 (runDO trC3 initState).locals = some ⟨"a", "Bo", []⟩ ∧
    ¬(("room-u2u2u2u2u2u2u2u2" ∈ Session.rooms ⟨"a", "Bo", []⟩) ↔
      pidInRoom "a" "room-u2u2u2u2u2u2u2u2" (runDO trC3 initState).rooms) := by decide

/-- Witness for `C3_amended_consistency`: a concrete two-step guarded
trace (join with fresh id, then room_create) in which the creator's
membership is bidirectionally recorded. -/
theorem C3_amended_witness :
    "room-bbbbbbbbbbbbbbbb" ∈
        Session.rooms ⟨"a", "Ann", ["room-bbbbbbbbbbbbbbbb"]⟩ ↔
      pidInRoom "a" "room-bbbbbbbbbbbbbbbb"
        ((stepDO (.msg 1 "bbbbbbbbbbbbbbbb" (.room_create (some "Club")))
          (stepDO (.msg 1 "aaaaaaaaaaaaaaaa" (.join (some "a") (some "Ann")))
            initState).1).1).rooms :=
  C3_amended_consistency _
    (ReachDO.step _ _ (ReachDO.step _ _ ReachDO.init (by decide)) (by decide))
    1 ⟨"a", "Ann", ["room-bbbbbbbbbbbbbbbb"]⟩ (by decide) (by decide)
    "room-bbbbbbbbbbbbbbbb"

end OpenWire

namespace OpenWire

/-! ## C6 — equivalence of the two deployment shapes

The Node relay and the Durable Object relay are *not* the same state
machine: they differ in nick truncation and suffixing, the welcome
payload (the Node welcome has no `nick` field), default room names and
name truncation, the room-not-found error text, generated-id derivation
and the `error` listener.  Already a single join produces different
outbound events.  What does hold: on traces avoiding all those corners
(explicit non-empty peer id, explicit collision-free nick of ≤ 24
characters, explicit name of ≤ 50 characters, no transport errors) the
two shapes compute identical registry/room states. -/

/-- Nicks of the currently mapped sessions. -/
def takenNicksOf (st : RelayState) : List String := (sessionsOf st).map Session.nick

/-- An optional field that is supplied and non-empty (so `x || d` keeps it). -/
def SuppliedNonempty : Option String → Prop
  | some p => p ≠ ""
  | none => False

instance : (o : Option String) → Decidable (SuppliedNonempty o)
  | some p => (inferInstance : Decidable (p ≠ ""))
  | none => (inferInstance : Decidable False)

/-- A supplied nick that neither truncation nor suffixing would alter. -/
def GoodNickOpt (st : RelayState) : Option String → Prop
  | some n => n ≠ "" ∧ n.length ≤ 24 ∧ n ∉ takenNicksOf st
  | none => False

instance (st : RelayState) : (o : Option String) → Decidable (GoodNickOpt st o)
  | some n => (inferInstance : Decidable (n ≠ "" ∧ n.length ≤ 24 ∧ n ∉ takenNicksOf st))
  | none => (inferInstance : Decidable False)

/-- A supplied room name that truncation would not alter. -/
def GoodNameOpt : Option String → Prop
  | some n => n ≠ "" ∧ n.length ≤ 50
  | none => False

instance : (o : Option String) → Decidable (GoodNameOpt o)
  | some n => (inferInstance : Decidable (n ≠ "" ∧ n.length ≤ 50))
  | none => (inferInstance : Decidable False)

/-- The restrictions under which the two deployment shapes stay in
lock-step on state: joins supply an explicit non-empty peer id and an
explicit collision-free nick within the length limit, room creations
supply an explicit name within the length limit, and no transport
`error` events occur. -/
def GoodSync (st : RelayState) : Action → Prop
  | .msg _ _ (.join pid0 nick0) => SuppliedNonempty pid0 ∧ GoodNickOpt st nick0
  | .msg _ _ (.room_create name0) => GoodNameOpt name0
  | .error _ => False
  | _ => True

instance (st : RelayState) (a : Action) : Decidable (GoodSync st a) :=
  match a with
  | .msg _ _ (.join pid0 nick0) =>
    (inferInstance : Decidable (SuppliedNonempty pid0 ∧ GoodNickOpt st nick0))
  | .msg _ _ (.room_create name0) => (inferInstance : Decidable (GoodNameOpt name0))
  | .msg _ _ (.message _) => (inferInstance : Decidable True)
  | .msg _ _ (.room_join _) => (inferInstance : Decidable True)
  | .msg _ _ (.room_invite _ _) => (inferInstance : Decidable True)
  | .msg _ _ (.room_message _ _) => (inferInstance : Decidable True)
  | .msg _ _ (.room_leave _) => (inferInstance : Decidable True)
  | .msg _ _ .room_list => (inferInstance : Decidable True)
  | .msg _ _ .unknown => (inferInstance : Decidable True)
  | .close _ => (inferInstance : Decidable True)
  | .error _ => (inferInstance : Decidable False)

/-- Node-relay join step, state component. -/
theorem stepServer_join_fst (c : Nat) (uuid : String) (pid0 nick0 : Option String)
    (st : RelayState) :
    (stepServer (.msg c uuid (.join pid0 nick0)) st).1 =
      ⟨aset c ⟨orFalsy pid0 uuid, orFalsy nick0 "Anonymous", []⟩ st.locals,
       if c ∈ st.reg then st.reg else st.reg ++ [c],
       st.rooms⟩ := rfl

/-- Under the sync restrictions a single step moves both shapes to the
same state. -/
theorem step_shape_eq (a : Action) (st : RelayState) (hg : GoodSync st a) :
    (stepServer a st).1 = (stepDO a st).1 := by
  cases a with
  | msg c uuid req =>
    cases req with
    | join pid0 nick0 =>
      obtain ⟨hp, hn⟩ := hg
      cases pid0 with
      | none => exact absurd hp (fun h => h)
      | some p =>
        cases nick0 with
        | none => exact absurd hn (fun h => h)
        | some n =>
          obtain ⟨hn1, hn2, hn3⟩ := hn
          have hp' : p ≠ "" := hp
          have hn3' : n ∉ (sessionsOf st).map Session.nick := hn3
          rw [stepServer_join_fst, stepDO_join_fst]
          have hpid : orFalsy (some p) uuid = orFalsy (some p) (strTake uuid 16) := by
            simp [orFalsy, hp']
          have hnick : orFalsy (some n) "Anonymous" =
              uniqueNick (strTake (orFalsy (some n) "Anonymous") 24)
                ((sessionsOf st).map Session.nick) := by
            have ho : orFalsy (some n) "Anonymous" = n := by simp [orFalsy, hn1]
            rw [ho, strTake_of_le hn2, uniqueNick_of_not_mem hn3']
          conv_lhs => rw [hpid, hnick]
    | message d =>
      cases hl : alookup c st.locals <;>
        simp [stepServer, stepDO, step, stepMsg, hl]
    | room_create name0 =>
      cases hl : alookup c st.locals with
      | none => simp [stepServer, stepDO, step, stepMsg, hl]
      | some s =>
        cases name0 with
        | none => exact absurd hg (fun h => h)
        | some n =>
          obtain ⟨hg1, hg2⟩ := hg
          have hname : shapeServer.mkName (orFalsy (some n) shapeServer.defaultName) =
              shapeDO.mkName (orFalsy (some n) shapeDO.defaultName) := by
            have ho1 : orFalsy (some n) shapeServer.defaultName = n := by
              simp [orFalsy, hg1]
            have ho2 : orFalsy (some n) shapeDO.defaultName = n := by
              simp [orFalsy, hg1]
            rw [ho1, ho2]
            show n = strTake n 50
            rw [strTake_of_le hg2]
          simp only [stepServer, stepDO, step, stepMsg, hl]
          rw [hname]
    | room_join rid =>
      cases hl : alookup c st.locals with
      | none => simp [stepServer, stepDO, step, stepMsg, hl]
      | some s =>
        cases hr : alookup rid st.rooms with
        | none => simp [stepServer, stepDO, step, stepMsg, hl, hr]
        | some r => simp [stepServer, stepDO, step, stepMsg, hl, hr]
    | room_invite rid target =>
      cases hl : alookup c st.locals with
      | none => simp [stepServer, stepDO, step, stepMsg, hl]
      | some s =>
        cases hr : alookup rid st.rooms with
        | none => simp [stepServer, stepDO, step, stepMsg, hl, hr]
        | some r =>
          cases hf : findConn st target <;>
            simp [stepServer, stepDO, step, stepMsg, hl, hr, hf]
    | room_message rid d =>
      cases hl : alookup c st.locals <;>
        simp [stepServer, stepDO, step, stepMsg, hl]
    | room_leave rid =>
      cases hl : alookup c st.locals <;>
        simp [stepServer, stepDO, step, stepMsg, hl]
    | room_list => rfl
    | unknown => rfl
  | close c => rfl
  | error c => exact absurd hg (fun h => h)

/-- A trace all of whose steps satisfy the sync restrictions in the
states they encounter. -/
def SyncTrace : RelayState → List Action → Prop
  | _, [] => True
  | st, a :: tr => GoodSync st a ∧ SyncTrace (stepDO a st).1 tr

/-- **C6** (amended): along every trace satisfying the sync
restrictions, the Node relay and the Durable Object relay compute the
same registry/room state.  (Their outbound events differ even then —
see the counterexample — so full event-level equivalence never holds.) -/
theorem C6_amended_state_equivalence :
    ∀ (tr : List Action) (st : RelayState), SyncTrace st tr →
      runServer tr st = runDO tr st
  | [], _, _ => rfl
  | a :: tr, st, h => by
    obtain ⟨hg, htr⟩ := h
    show runServer tr (stepServer a st).1 = runDO tr (stepDO a st).1
    rw [step_shape_eq a st hg]
    exact C6_amended_state_equivalence tr _ htr

/-- **C6** (counterexample): already the first join produces different
outbound events in the two shapes — the Durable Object welcome carries
the final nick, the Node welcome does not — refuting "the same outbound
events to each connection". -/
theorem C6_counterexample_welcome_differs :
    (stepServer (.msg 1 "u" (.join (some "p") (some "Ann"))) initState).2 ≠
    (stepDO (.msg 1 "u" (.join (some "p") (some "Ann"))) initState).2 := by decide

/-- Witness for `C6_amended_state_equivalence` on a concrete three-step
trace (join, room_create, close). -/
theorem C6_amended_witness :
    runServer
        [.msg 1 "uuuuuuuuuuuuuuuu" (.join (some "p") (some "Ann")),
         .msg 1 "rrrrrrrrrrrrrrrr" (.room_create (some "Club")),
         .close 1] initState =
      runDO
        [.msg 1 "uuuuuuuuuuuuuuuu" (.join (some "p") (some "Ann")),
         .msg 1 "rrrrrrrrrrrrrrrr" (.room_create (some "Club")),
         .close 1] initState :=
  C6_amended_state_equivalence _ initState ⟨by decide, by decide, trivial, trivial⟩

end OpenWire
